import Mathlib

/-!
Shallow embedding of the distributed scheduling coordination layer of the
pycity_scheduling repository: the dual decomposition algorithm (the
single-process function and the rank-0 arithmetic of the MPI variant), the
postsolve phase of the central optimization algorithm, the pyomo value
extraction helpers and the model population dispatch.

The external solver is treated as an opaque oracle: every execution of the
program corresponds to some map from (iteration, node id) to either the
extracted power trajectory of that subproblem (optimal solve) or a
non-optimal status. Trajectories are total maps from timestep indices to
rationals; only indices below the operation horizon are meaningful.
-/

/-- Power trajectory indexed by timestep, as used for the entries of
P_El_Schedules, for lambdas and for residual vectors. -/
abbrev Vec : Type := ℕ → ℚ

/-- Solver oracle: for iteration k and node id n (0 is the aggregator),
some trajectory means the solve reported optimal and these are the loaded
variable values; none means a non-optimal termination condition or status. -/
abbrev SolverOracle : Type := ℕ → ℕ → Option Vec

/-- Configuration of a dual_decomposition run: operation horizon, the node
ids of city_district.nodes (the aggregator has the reserved key 0), the
isinstance filter selecting Building / Photovoltaic / WindEnergyConverter
entities, the primal tolerance, the step size rho and the iteration cap. -/
structure DDConfig where
  op_horizon : ℕ
  node_ids : List ℕ
  solvable : ℕ → Bool
  eps_primal : ℚ
  rho : ℚ
  max_iterations : ℕ

/-- Observable events of a run: a subproblem solve (with its node id, the
iteration counter value and whether the solver reported optimal) and a call
to update_schedule on the entity of a node id (0 is the city district). -/
inductive DDEvent
  | solve (node_id iter : ℕ) (ok : Bool)
  | update_schedule (node_id : ℕ)
deriving DecidableEq

/-- Result of dual_decomposition: the returned triple (iteration, r_norms,
lambdas up to the horizon), or one of the raised exceptions. -/
inductive DDResult
  | success (iterations : ℕ) (r_norms : List (WithTop ℚ)) (lambdas : List ℚ)
  | MaxIterationError
  | NonoptimalError
deriving DecidableEq

/-- Outcome of a run: the result, the ordered event trace, and the value of
the local r_norms list at the moment the function terminates (also on the
exception paths, where the list is discarded by the caller). -/
structure DDOutcome where
  result : DDResult
  events : List DDEvent
  history : List (WithTop ℚ)
deriving DecidableEq

/-- Mutable loop state of dual_decomposition: the iteration counter, the
lambdas vector, the P_El_Schedules map (key 0 is the aggregator) and the
r_norms list, which starts as [np.inf]. -/
structure DDState where
  iteration : ℕ
  lambdas : Vec
  scheds : ℕ → Vec
  r_norms : List (WithTop ℚ)

/-- Step 1 of an iteration (lines 93..123 of
dual_decomposition_algortihm.py): walk the nodes in order, skip entities
that fail the isinstance filter, solve the others and copy the extracted
trajectory into P_El_Schedules; a non-optimal solve raises NonoptimalError
immediately. The error value carries the event trace at the raise. -/
def solveNodes (oracle : SolverOracle) (iter : ℕ) (solvable : ℕ → Bool) :
    List ℕ → (ℕ → Vec) → List DDEvent →
    Except (List DDEvent) ((ℕ → Vec) × List DDEvent)
  | [], scheds, evs => .ok (scheds, evs)
  | n :: rest, scheds, evs =>
    if solvable n then
      match oracle iter n with
      | some p =>
        solveNodes oracle iter solvable rest
          (fun m => if m = n then p else scheds m) (evs ++ [.solve n iter true])
      | none => .error (evs ++ [.solve n iter false])
    else
      solveNodes oracle iter solvable rest scheds evs

/-- Lines 159..161: lambdas -= rho * P_El_Schedules[0], then for every node
id lambdas += rho * P_El_Schedules[node_id], as a fold over the node list. -/
def lambdaUpdate (rho : ℚ) (lambdas : Vec) (scheds : ℕ → Vec)
    (node_ids : List ℕ) : Vec :=
  node_ids.foldl (fun lam n => fun t => lam t + rho * scheds n t)
    (fun t => lambdas t - rho * scheds 0 t)

/-- Lines 168..171: r = -P_El_Schedules[0]; then r += P_El_Schedules[n] for
every node id n. -/
def residualVec (scheds : ℕ → Vec) (node_ids : List ℕ) : Vec :=
  node_ids.foldl (fun r n => fun t => r t + scheds n t) (fun t => -scheds 0 t)

/-- Lines 167 and 173..175: r_norms.append(0) followed by the loop over the
operation time vector raising the entry to abs(r[t]) whenever larger. -/
def residualNorm (H : ℕ) (r : Vec) : ℚ :=
  (List.range H).foldl (fun cur t => if |r t| > cur then |r t| else cur) 0

/-- Value of r_norms[-1]; the list is never empty (it starts as [np.inf]). -/
def lastNorm (l : List (WithTop ℚ)) : WithTop ℚ :=
  l.getLastD ⊤

/-- One pass of the while loop body after the iteration counter check: solve
all nodes, solve the aggregator, update lambdas and append the residual
norm. An error value is the event trace at the NonoptimalError raise. -/
def ddIteration (cfg : DDConfig) (oracle : SolverOracle) (st : DDState)
    (evs : List DDEvent) : Except (List DDEvent) (DDState × List DDEvent) :=
  let iter := st.iteration + 1
  match solveNodes oracle iter cfg.solvable cfg.node_ids st.scheds evs with
  | .error evs1 => .error evs1
  | .ok (scheds1, evs1) =>
    match oracle iter 0 with
    | none => .error (evs1 ++ [.solve 0 iter false])
    | some p0 =>
      let scheds2 : ℕ → Vec := fun m => if m = 0 then p0 else scheds1 m
      let lam := lambdaUpdate cfg.rho st.lambdas scheds2 cfg.node_ids
      let rn := residualNorm cfg.op_horizon (residualVec scheds2 cfg.node_ids)
      .ok (⟨iter, lam, scheds2, st.r_norms ++ [(rn : WithTop ℚ)]⟩,
        evs1 ++ [.solve 0 iter true])

/-- The while loop of dual_decomposition. The fuel argument equals
max_iterations minus the completed iteration count, so that fuel 0 with the
loop condition still true is exactly the iteration counter exceeding
max_iterations, which raises MaxIterationError. On loop exit the postsolve
runs update_schedule on the city district first and then on every node
entity in order (lines 177..184), and the function returns the triple. -/
def ddLoop (cfg : DDConfig) (oracle : SolverOracle) :
    ℕ → DDState → List DDEvent → DDOutcome
  | fuel, st, evs =>
    if (cfg.eps_primal : WithTop ℚ) < lastNorm st.r_norms then
      match fuel with
      | 0 => ⟨.MaxIterationError, evs, st.r_norms⟩
      | fuel' + 1 =>
        match ddIteration cfg oracle st evs with
        | .error evs1 => ⟨.NonoptimalError, evs1, st.r_norms⟩
        | .ok (st', evs1) => ddLoop cfg oracle fuel' st' evs1
    else
      ⟨.success st.iteration st.r_norms ((List.range cfg.op_horizon).map st.lambdas),
        evs ++ [.update_schedule 0] ++ cfg.node_ids.map .update_schedule,
        st.r_norms⟩

/-- The dual_decomposition function of
pycity_scheduling/algorithms/dual_decomposition_algortihm.py: iteration
counter 0, lambdas = np.zeros, all P_El_Schedules entries zeroed,
r_norms = [np.inf]. -/
def dual_decomposition (cfg : DDConfig) (oracle : SolverOracle) : DDOutcome :=
  ddLoop cfg oracle cfg.max_iterations ⟨0, fun _ => 0, fun _ _ => 0, [⊤]⟩ []

/-- Lines 48..51 of central_optimization_algortihm.py after the single
solve: update_schedule on every node entity in order, then on the city
district. -/
def central_optimization_updates (node_ids : List ℕ) : List DDEvent :=
  (node_ids.map DDEvent.update_schedule) ++ [DDEvent.update_schedule 0]

/-- Keeps only the update_schedule events of a trace. -/
def updateEvents (l : List DDEvent) : List DDEvent :=
  l.filter fun e => match e with
    | .update_schedule _ => true
    | .solve _ _ _ => false

/-- True when the trace holds a solve event whose status was non-optimal. -/
def hasFailedSolve (l : List DDEvent) : Bool :=
  l.any fun e => match e with
    | .solve _ _ ok => !ok
    | .update_schedule _ => false

namespace DualDecompositionMPI

/-- np.sum(rows, axis=0) over a list of trajectory rows. -/
def npSumRows (rows : List Vec) : Vec :=
  rows.foldl (fun acc v => fun t => acc t + v t) (fun _ => 0)

/-- np.linalg.norm(r, np.inf) of the first H entries of r: the largest
absolute entry. -/
def npInfNorm (H : ℕ) (r : Vec) : ℚ :=
  (List.range H).foldl (fun cur t => max cur |r t|) 0

/-- The rows of the p_el_schedules array of DualDecompositionMPI._iteration
in the single-process (mpi_size = 1) execution: row 0 is always extracted
from the aggregator entity; a row j >= 1 is extracted when entity j passes
the isinstance filter and otherwise keeps the arbitrary contents the
np.empty allocation left in it. -/
def p_el_schedules (passes : ℕ → Bool) (junk extracted : ℕ → Vec) : ℕ → Vec :=
  fun j => if j = 0 then extracted 0 else if passes j then extracted j else junk j

/-- The list of the n rows of the p_el_schedules array. -/
def rowsOf (n : ℕ) (p : ℕ → Vec) : List Vec :=
  (List.range n).map p

/-- Lines 248..249 at rank 0: lambdas -= rho * p_el_schedules[0];
lambdas += rho * np.sum(p_el_schedules[1:], axis=0). -/
def incentive_update (n : ℕ) (rho : ℚ) (lambdas : Vec) (p : ℕ → Vec) : Vec :=
  let lam1 : Vec := fun t => lambdas t - rho * p 0 t
  fun t => lam1 t + rho * npSumRows ((rowsOf n p).drop 1) t

/-- Lines 250..252 at rank 0: r = np.zeros; r -= p_el_schedules[0];
r += np.sum(p_el_schedules[1:], axis=0). -/
def residual_r (n : ℕ) (p : ℕ → Vec) : Vec :=
  fun t => (0 - p 0 t) + npSumRows ((rowsOf n p).drop 1) t

/-- Line 263: the value appended to results["r_norms"]. -/
def r_norm_entry (n H : ℕ) (p : ℕ → Vec) : ℚ :=
  npInfNorm H (residual_r n p)

/-- Lines 181..199 before the sort: the per-node rank assignment array. -/
def rank_id_range_unsorted (n size : ℕ) : List ℕ :=
  if n < size then List.range n
  else if size < n then
    if size = 1 then List.replicate n 0
    else
      let a := (n - 1) / (size - 1)
      let b := (n - 1) % (size - 1)
      0 :: ((((List.range (size - 1)).map (fun i => List.replicate a (i + 1))).flatten)
        ++ ((List.range b).map (fun i => i + 1)))
  else List.range n

/-- Boolean comparison used to model the ascending np.sort. -/
def npSortLE (x y : ℕ) : Bool := decide (x ≤ y)

/-- Line 199: rank_id_range = np.sort(rank_id_range). Entry i is the MPI
rank that owns node index i. -/
def rank_id_range (n size : ℕ) : List ℕ :=
  (rank_id_range_unsorted n size).mergeSort npSortLE

end DualDecompositionMPI

/-- Image of _known_domains: the type tag used for extraction. -/
inductive VarDomainKind
  | floatT
  | intT
  | boolT
deriving DecidableEq

/-- A non-indexed pyomo variable as seen by extract_pyomo_value: the domain
kind computed by _known_domains, the bounds, the stale flag, whether the
variable has a stale attribute at all (hasattr check), whether the
container is indexed, and the loaded solver value. -/
structure PyomoVar where
  domain : VarDomainKind
  lb : Option ℚ
  ub : Option ℚ
  stale : Bool
  has_stale : Bool
  is_indexed : Bool
  value : ℚ
deriving DecidableEq

/-- Outcome of extract_pyomo_value: the returned number or the raised
exception (ValueError, the UnboundLocalError of reading the unassigned
local t, SchedulingError, or a failed assert). -/
inductive ExtractOutcome
  | ok (value : ℚ)
  | ValueError
  | UnboundLocalError
  | SchedulingError
  | AssertionError
deriving DecidableEq

/-- Python t(value) for t in {float, int, bool}: int truncates toward zero,
bool maps nonzero to 1. -/
def pyCast : VarDomainKind → ℚ → ℚ
  | .floatT, q => q
  | .intT, q => if 0 ≤ q then (⌊q⌋ : ℚ) else (⌈q⌉ : ℚ)
  | .boolT, q => if q = 0 then 0 else 1

/-- Lines 341..376 of pycity_scheduling/util/__init__.py. The local t is
assigned only when var_type is None; reading it on any other call raises
UnboundLocalError. On a stale variable the value starts at 0, moves to the
upper bound when that is below zero, else to the lower bound when that is
above zero, is rounded by np.ceil or np.floor for an int domain and
collapsed to 1 when nonzero for a bool domain, and a final bounds check
raises SchedulingError. On a non-stale variable the loaded value is cast
and the bound asserts run. -/
def extract_pyomo_value (v : PyomoVar) (var_type : Option VarDomainKind) :
    ExtractOutcome :=
  let t : Option VarDomainKind := if var_type = none then some v.domain else none
  if v.has_stale = false then .ValueError
  else if v.is_indexed then .ValueError
  else if v.stale then
    let value : ℚ :=
      match v.ub with
      | some u =>
        if u < 0 then u
        else
          match v.lb with
          | some l => if 0 < l then l else 0
          | none => 0
      | none =>
        match v.lb with
        | some l => if 0 < l then l else 0
        | none => 0
    match t with
    | none => .UnboundLocalError
    | some tk =>
      let value2 : ℚ :=
        match tk with
        | .intT => if 0 < value then (⌈value⌉ : ℚ) else if value < 0 then (⌊value⌋ : ℚ) else value
        | .boolT => if value = 0 then value else 1
        | .floatT => value
      if (match v.lb with | some l => decide (value2 < l) | none => false)
          || (match v.ub with | some u => decide (u < value2) | none => false) then
        .SchedulingError
      else .ok (pyCast tk value2)
  else
    match t with
    | none => .UnboundLocalError
    | some tk =>
      let value2 := pyCast tk v.value
      if (match v.lb with | some l => decide (value2 < l) | none => false) then
        .AssertionError
      else if (match v.ub with | some u => decide (u < value2) | none => false) then
        .AssertionError
      else .ok value2

/-- Value selected by the stale branch before domain rounding: 0, moved to
the upper bound when that is below zero, else to the lower bound when that
is above zero. -/
def staleSelect (lb ub : Option ℚ) : ℚ :=
  match ub with
  | some u =>
    if u < 0 then u
    else
      match lb with
      | some l => if 0 < l then l else 0
      | none => 0
  | none =>
    match lb with
    | some l => if 0 < l then l else 0
    | none => 0

/-- Domain rounding applied by the stale branch: np.ceil / np.floor for an
int domain, collapse of nonzero values to 1 for a bool domain. -/
def staleCast (dom : VarDomainKind) (q : ℚ) : ℚ :=
  match dom with
  | .intT => if 0 < q then (⌈q⌉ : ℚ) else if q < 0 then (⌊q⌋ : ℚ) else q
  | .boolT => if q = 0 then q else 1
  | .floatT => q

/-- Membership in the variable domain as seen by the schedule: every
rational for a float domain, the integers for an int domain, 0 and 1 for a
bool domain. -/
def inDomain : VarDomainKind → ℚ → Prop
  | .floatT => fun _ => True
  | .intT => fun q => ∃ z : ℤ, (z : ℚ) = q
  | .boolT => fun q => q = 0 ∨ q = 1

/-- A value is feasible for a variable when it lies in the variable domain
and within both bounds. -/
def feasible (v : PyomoVar) (q : ℚ) : Prop :=
  inDomain v.domain q
  ∧ (∀ l, v.lb = some l → l ≤ q)
  ∧ (∀ u, v.ub = some u → q ≤ u)

/-- Outcome of a populate_model mode dispatch: either the constraint block
of the convex branch was applied or a ValueError was raised. -/
inductive PopulateOutcome
  | applied
  | ValueError
deriving DecidableEq

namespace Boiler

/-- Lines 86..94 of src/pycity_scheduling/classes/boiler.py: the test is
the Python expression mode == "convex" or "integer", whose second operand
is a non-empty string literal and therefore truthy. -/
def populate_model (mode : String) : PopulateOutcome :=
  if (mode == "convex") || ("integer" != "") then .applied else .ValueError

end Boiler

namespace Chiller

/-- Lines 131..145 of src/pycity_scheduling/classes/chiller.py: same
always-truthy test as the boiler. -/
def populate_model (mode : String) : PopulateOutcome :=
  if (mode == "convex") || ("integer" != "") then .applied else .ValueError

end Chiller

namespace CityDistrict

/-- Lines 86..92 of src/pycity_scheduling/classes/city_district.py: the
test is a genuine membership test mode in ["convex", "integer"]. -/
def populate_model (mode : String) : PopulateOutcome :=
  if ["convex", "integer"].contains mode then .applied else .ValueError

end CityDistrict

/-- Lines 175..199 of pycity_scheduling/util/__init__.py: the keys of the
models dict built by populate_models. The dict starts empty, the first
branch stores the single central model under key 0, the second branch one
model per node plus the aggregator model, and an unknown algorithm name
falls through both branches and returns the dict still empty. -/
def populate_models (algorithm : String) (node_ids : List ℕ) : List ℕ :=
  if ["stand-alone", "local", "central"].contains algorithm then [0]
  else if ["exchange-admm", "dual-decomposition"].contains algorithm then 0 :: node_ids
  else []

/-- Concrete two-node district used to evaluate the theorems: horizon 1,
node ids 1 and 2, zero tolerance, rho 1, iteration cap 5. -/
def wCfg : DDConfig := ⟨1, [1, 2], fun _ => true, 0, 1, 5⟩

/-- Concrete solver trajectories: the aggregator extracts 3 in round 1 and
2 afterwards, every node extracts the constant 1. -/
def wOrcT : ℕ → ℕ → Vec :=
  fun k n => fun _ => if n = 0 then (if k = 1 then 3 else 2) else 1

/-- Oracle wrapping wOrcT with every solve optimal. -/
def wOrc : SolverOracle := fun k n => some (wOrcT k n)

/-- Initial loop state of a run (iteration 0, zeros, r_norms = [np.inf]). -/
def wSt : DDState := ⟨0, fun _ => 0, fun _ _ => 0, [⊤]⟩

/-- Same district as wCfg but with the iteration cap forced to 1. -/
def wCfg1 : DDConfig := ⟨1, [1, 2], fun _ => true, 0, 1, 1⟩

/-- Oracle identical to wOrc except that the solve of node 2 in round 1
reports a non-optimal status. -/
def wOrcFail : SolverOracle :=
  fun k n => if k = 1 ∧ n = 2 then none else some (wOrcT k n)

/-! Helper lemmas about the embedding. -/

theorem foldl_vec_apply {α : Type} (g : α → Vec) (l : List α) (v0 : Vec) (t : ℕ) :
    (l.foldl (fun v x => fun u => v u + g x u) v0) t
      = v0 t + (l.map fun x => g x t).sum := by
  induction l generalizing v0 with
  | nil => simp
  | cons x rest ih => simp [ih, add_assoc]

theorem lambdaUpdate_apply (rho : ℚ) (lambdas : Vec) (scheds : ℕ → Vec)
    (node_ids : List ℕ) (t : ℕ) :
    lambdaUpdate rho lambdas scheds node_ids t
      = lambdas t - rho * scheds 0 t + (node_ids.map fun n => rho * scheds n t).sum :=
  foldl_vec_apply (fun n => fun u => rho * scheds n u) node_ids _ t

theorem residualVec_apply (scheds : ℕ → Vec) (node_ids : List ℕ) (t : ℕ) :
    residualVec scheds node_ids t
      = -scheds 0 t + (node_ids.map fun n => scheds n t).sum :=
  foldl_vec_apply (fun n => fun u => scheds n u) node_ids _ t

theorem npSumRows_apply (rows : List Vec) (t : ℕ) :
    DualDecompositionMPI.npSumRows rows t = (rows.map fun v => v t).sum := by
  have h := foldl_vec_apply (fun v : Vec => v) rows (fun _ => 0) t
  simpa [DualDecompositionMPI.npSumRows] using h

theorem foldl_max_char (f : ℕ → ℚ) :
    ∀ (l : List ℕ) (acc : ℚ),
      acc ≤ l.foldl (fun cur t => if f t > cur then f t else cur) acc
      ∧ (∀ t ∈ l, f t ≤ l.foldl (fun cur t => if f t > cur then f t else cur) acc)
      ∧ (l.foldl (fun cur t => if f t > cur then f t else cur) acc = acc
          ∨ ∃ t ∈ l, l.foldl (fun cur t => if f t > cur then f t else cur) acc = f t) := by
  intro l
  induction l with
  | nil => exact fun acc => ⟨le_refl acc, by simp, Or.inl rfl⟩
  | cons x rest ih =>
    intro acc
    simp only [List.foldl_cons]
    have hle : acc ≤ if f x > acc then f x else acc := by
      split
      · exact le_of_lt (by assumption)
      · exact le_refl acc
    have hfx : f x ≤ if f x > acc then f x else acc := by
      split
      · exact le_refl _
      · exact le_of_not_lt (by assumption)
    obtain ⟨h1, h2, h3⟩ := ih (if f x > acc then f x else acc)
    refine ⟨le_trans hle h1, ?_, ?_⟩
    · intro t ht
      rcases List.mem_cons.mp ht with h | h
      · subst h; exact le_trans hfx h1
      · exact h2 t h
    · rcases h3 with h | ⟨t, ht, heq⟩
      · by_cases hc : f x > acc
        · rw [if_pos hc] at h ⊢
          exact Or.inr ⟨x, List.mem_cons_self x rest, h⟩
        · rw [if_neg hc] at h ⊢
          exact Or.inl h
      · exact Or.inr ⟨t, List.mem_cons_of_mem x ht, heq⟩

theorem residualNorm_le (H : ℕ) (r : Vec) :
    ∀ t < H, |r t| ≤ residualNorm H r := by
  intro t ht
  have h := (foldl_max_char (fun t => |r t|) (List.range H) 0).2.1
  exact h t (List.mem_range.mpr ht)

theorem residualNorm_attained (H : ℕ) (r : Vec) (hH : 1 ≤ H) :
    ∃ t < H, residualNorm H r = |r t| := by
  obtain ⟨h0, hub, hcase⟩ := foldl_max_char (fun t => |r t|) (List.range H) 0
  rcases hcase with h | ⟨t, ht, heq⟩
  · refine ⟨0, hH, ?_⟩
    have hz : |r 0| ≤ residualNorm H r := residualNorm_le H r 0 hH
    have hzero : residualNorm H r = 0 := h
    rw [hzero] at hz ⊢
    exact (le_antisymm hz (abs_nonneg _)).symm
  · exact ⟨t, List.mem_range.mp ht, heq⟩

theorem npInfNorm_eq_residualNorm (H : ℕ) (r : Vec) :
    DualDecompositionMPI.npInfNorm H r = residualNorm H r := by
  unfold DualDecompositionMPI.npInfNorm residualNorm
  have hfun : (fun (cur : ℚ) (t : ℕ) => max cur |r t|)
      = fun (cur : ℚ) (t : ℕ) => if |r t| > cur then |r t| else cur := by
    funext cur t
    rcases le_or_lt (|r t|) cur with h | h
    · rw [max_eq_left h, if_neg (not_lt.mpr h)]
    · rw [max_eq_right (le_of_lt h), if_pos h]
  rw [hfun]

theorem solveNodes_ok (oracle : SolverOracle) (iter : ℕ) (solvable : ℕ → Bool)
    (P : ℕ → Vec) :
    ∀ (l : List ℕ) (scheds : ℕ → Vec) (evs : List DDEvent),
      (∀ n ∈ l, solvable n = true → oracle iter n = some (P n)) →
      ∃ ext, solveNodes oracle iter solvable l scheds evs
          = .ok (fun m => if m ∈ l ∧ solvable m = true then P m else scheds m, evs ++ ext)
        ∧ ∀ e ∈ ext, ∃ n, e = .solve n iter true := by
  intro l
  induction l with
  | nil =>
    intro scheds evs _
    refine ⟨[], ?_, by simp⟩
    simp only [solveNodes, List.append_nil]
    exact congrArg Except.ok (congrArg₂ Prod.mk (funext fun m => by simp) rfl)
  | cons n rest ih =>
    intro scheds evs hor
    by_cases hs : solvable n = true
    · have hsome : oracle iter n = some (P n) := hor n (List.mem_cons_self n rest) hs
      obtain ⟨ext, hrec, hext⟩ :=
        ih (fun m => if m = n then P n else scheds m) (evs ++ [.solve n iter true])
          (fun m hm hsm => hor m (List.mem_cons_of_mem n hm) hsm)
      refine ⟨.solve n iter true :: ext, ?_, ?_⟩
      · have hstep : solveNodes oracle iter solvable (n :: rest) scheds evs
            = solveNodes oracle iter solvable rest
                (fun m => if m = n then P n else scheds m) (evs ++ [.solve n iter true]) := by
          simp only [solveNodes, hs, if_pos, hsome]
        rw [hstep, hrec]
        congr 1
        refine congrArg₂ Prod.mk (funext fun m => ?_) (by simp)
        by_cases hmr : m ∈ rest ∧ solvable m = true
        · rw [if_pos hmr, if_pos ⟨List.mem_cons_of_mem n hmr.1, hmr.2⟩]
        · rw [if_neg hmr]
          by_cases hmn : m = n
          · subst hmn
            rw [if_pos rfl, if_pos ⟨List.mem_cons_self m rest, hs⟩]
          · rw [if_neg hmn]
            rw [if_neg ?_]
            rintro ⟨hmem, hsm⟩
            rcases List.mem_cons.mp hmem with h | h
            · exact hmn h
            · exact hmr ⟨h, hsm⟩
      · intro e he
        rcases List.mem_cons.mp he with h | h
        · exact ⟨n, h⟩
        · exact hext e h
    · obtain ⟨ext, hrec, hext⟩ :=
        ih scheds evs (fun m hm hsm => hor m (List.mem_cons_of_mem n hm) hsm)
      refine ⟨ext, ?_, hext⟩
      have hstep : solveNodes oracle iter solvable (n :: rest) scheds evs
          = solveNodes oracle iter solvable rest scheds evs := by
        simp only [solveNodes]
        rw [if_neg hs]
      rw [hstep, hrec]
      congr 1
      refine congrArg₂ Prod.mk (funext fun m => ?_) rfl
      by_cases hmr : m ∈ rest ∧ solvable m = true
      · rw [if_pos hmr, if_pos ⟨List.mem_cons_of_mem n hmr.1, hmr.2⟩]
      · rw [if_neg hmr, if_neg ?_]
        rintro ⟨hmem, hsm⟩
        rcases List.mem_cons.mp hmem with h | h
        · subst h; exact hs hsm
        · exact hmr ⟨h, hsm⟩

/-- The P_El_Schedules map after step 1 and step 2 of a successful round:
the aggregator entry holds its freshly extracted trajectory, every node that
passes the isinstance filter holds its freshly extracted trajectory, and
every other entry is untouched. -/
def postSolveScheds (cfg : DDConfig) (st : DDState) (P : ℕ → Vec) (P0 : Vec) :
    ℕ → Vec :=
  fun m => if m = 0 then P0
    else if m ∈ cfg.node_ids ∧ cfg.solvable m = true then P m else st.scheds m

theorem ddIteration_ok (cfg : DDConfig) (oracle : SolverOracle) (st : DDState)
    (evs : List DDEvent) (P : ℕ → Vec) (P0 : Vec)
    (hsol : ∀ n ∈ cfg.node_ids, cfg.solvable n = true →
      oracle (st.iteration + 1) n = some (P n))
    (hagg : oracle (st.iteration + 1) 0 = some P0) :
    ∃ ext, ddIteration cfg oracle st evs
        = .ok (⟨st.iteration + 1,
            lambdaUpdate cfg.rho st.lambdas (postSolveScheds cfg st P P0) cfg.node_ids,
            postSolveScheds cfg st P P0,
            st.r_norms ++ [((residualNorm cfg.op_horizon
              (residualVec (postSolveScheds cfg st P P0) cfg.node_ids) : ℚ) : WithTop ℚ)]⟩,
          evs ++ ext)
      ∧ ∀ e ∈ ext, ∃ n, e = .solve n (st.iteration + 1) true := by
  obtain ⟨ext1, hrec, hext1⟩ :=
    solveNodes_ok oracle (st.iteration + 1) cfg.solvable P cfg.node_ids st.scheds evs hsol
  refine ⟨ext1 ++ [.solve 0 (st.iteration + 1) true], ?_, ?_⟩
  · simp only [ddIteration]
    rw [hrec, hagg]
    rw [← List.append_assoc]
    rfl
  · intro e he
    rcases List.mem_append.mp he with h | h
    · exact hext1 e h
    · rcases List.mem_singleton.mp h with rfl
      exact ⟨0, rfl⟩

theorem p_el_schedules_zero (passes : ℕ → Bool) (junk extracted : ℕ → Vec) :
    DualDecompositionMPI.p_el_schedules passes junk extracted 0 = extracted 0 := rfl

theorem p_el_schedules_rows (m : ℕ) (passes : ℕ → Bool) (junk extracted : ℕ → Vec)
    (hpass : ∀ j, 1 ≤ j → j < m + 1 → passes j = true) (t : ℕ) :
    (((DualDecompositionMPI.rowsOf (m + 1)
        (DualDecompositionMPI.p_el_schedules passes junk extracted)).drop 1).map
      fun v => v t)
      = (List.range m).map fun j => extracted (j + 1) t := by
  unfold DualDecompositionMPI.rowsOf
  rw [List.range_succ_eq_map]
  simp only [List.map_cons, List.drop_succ_cons, List.drop_zero, List.map_map]
  apply List.map_congr_left
  intro j hj
  have hjm : j < m := List.mem_range.mp hj
  have hp : passes (j + 1) = true := hpass (j + 1) (Nat.le_add_left 1 j) (by omega)
  simp [Function.comp, DualDecompositionMPI.p_el_schedules, hp]

/-- C1: in every iteration of the dual decomposition algorithm (the
single-process dual_decomposition function and the rank-0 update of the MPI
variant alike), after all subproblems of the round are solved the incentive
vector is updated to lambda - rho * P_district + rho * sum of the power
trajectories extracted by the non-aggregator nodes in that same round. -/
theorem incentive_update_rule :
    (∀ (cfg : DDConfig) (oracle : SolverOracle) (st : DDState) (evs : List DDEvent)
        (P : ℕ → Vec) (P0 : Vec),
      (∀ n ∈ cfg.node_ids, cfg.solvable n = true) →
      0 ∉ cfg.node_ids →
      (∀ n ∈ cfg.node_ids, oracle (st.iteration + 1) n = some (P n)) →
      oracle (st.iteration + 1) 0 = some P0 →
      ∃ st' evs1, ddIteration cfg oracle st evs = .ok (st', evs1)
        ∧ ∀ t, st'.lambdas t
            = st.lambdas t - cfg.rho * P0 t
              + cfg.rho * (cfg.node_ids.map fun n => P n t).sum)
    ∧ (∀ (m : ℕ) (rho : ℚ) (lambdas : Vec) (passes : ℕ → Bool) (junk extracted : ℕ → Vec),
      (∀ j, 1 ≤ j → j < m + 1 → passes j = true) →
      ∀ t, DualDecompositionMPI.incentive_update (m + 1) rho lambdas
          (DualDecompositionMPI.p_el_schedules passes junk extracted) t
        = lambdas t - rho * extracted 0 t
          + rho * ((List.range m).map fun j => extracted (j + 1) t).sum) := by
  constructor
  · intro cfg oracle st evs P P0 hall h0 hsol hagg
    obtain ⟨ext, heq, _⟩ :=
      ddIteration_ok cfg oracle st evs P P0 (fun n hn _ => hsol n hn) hagg
    refine ⟨_, _, heq, fun t => ?_⟩
    show lambdaUpdate cfg.rho st.lambdas (postSolveScheds cfg st P P0) cfg.node_ids t = _
    rw [lambdaUpdate_apply]
    have h0v : postSolveScheds cfg st P P0 0 t = P0 t := by
      simp [postSolveScheds]
    have hmap : (cfg.node_ids.map fun n => cfg.rho * postSolveScheds cfg st P P0 n t)
        = cfg.node_ids.map fun n => cfg.rho * P n t := by
      apply List.map_congr_left
      intro n hn
      have hn0 : ¬(n = 0) := fun h => h0 (h ▸ hn)
      simp [postSolveScheds, hn0, hn, hall n hn]
    rw [h0v, hmap, List.sum_map_mul_left]
  · intro m rho lambdas passes junk extracted hpass t
    unfold DualDecompositionMPI.incentive_update
    simp only []
    rw [npSumRows_apply, p_el_schedules_rows m passes junk extracted hpass t]
    rfl

/-- Witness for C1 at the concrete district wCfg with oracle wOrc, round 1
from the initial state, and at the concrete rank-0 update with three
entities, rho = 2 and everything passing the isinstance filter. -/
theorem incentive_update_rule_witness :
    (∃ st' evs1, ddIteration wCfg wOrc wSt [] = .ok (st', evs1)
      ∧ ∀ t, st'.lambdas t
          = wSt.lambdas t - wCfg.rho * wOrcT 1 0 t
            + wCfg.rho * (wCfg.node_ids.map fun n => wOrcT 1 n t).sum)
    ∧ (∀ t, DualDecompositionMPI.incentive_update (2 + 1) 2 (fun _ => 0)
          (DualDecompositionMPI.p_el_schedules (fun _ => true) (fun _ _ => 7) (wOrcT 1)) t
        = (fun _ => (0 : ℚ)) t - 2 * wOrcT 1 0 t
          + 2 * ((List.range 2).map fun j => wOrcT 1 (j + 1) t).sum) :=
  ⟨incentive_update_rule.1 wCfg wOrc wSt [] (fun n => wOrcT 1 n) (wOrcT 1 0)
      (by decide) (by decide) (fun n _ => rfl) rfl,
    incentive_update_rule.2 2 2 (fun _ => 0) (fun _ => true) (fun _ _ => 7) (wOrcT 1)
      (fun j _ _ => rfl)⟩

theorem residualVec_postSolve (cfg : DDConfig) (st : DDState) (P : ℕ → Vec) (P0 : Vec)
    (hall : ∀ n ∈ cfg.node_ids, cfg.solvable n = true) (h0 : 0 ∉ cfg.node_ids) :
    residualVec (postSolveScheds cfg st P P0) cfg.node_ids
      = fun t => (cfg.node_ids.map fun n => P n t).sum - P0 t := by
  funext t
  rw [residualVec_apply]
  have h0v : postSolveScheds cfg st P P0 0 t = P0 t := by simp [postSolveScheds]
  have hmap : (cfg.node_ids.map fun n => postSolveScheds cfg st P P0 n t)
      = cfg.node_ids.map fun n => P n t := by
    apply List.map_congr_left
    intro n hn
    have hn0 : ¬(n = 0) := fun h => h0 (h ▸ hn)
    simp [postSolveScheds, hn0, hn, hall n hn]
  rw [h0v, hmap]
  ring

theorem mpi_residual_r_eq (m : ℕ) (passes : ℕ → Bool) (junk extracted : ℕ → Vec)
    (hpass : ∀ j, 1 ≤ j → j < m + 1 → passes j = true) :
    DualDecompositionMPI.residual_r (m + 1)
        (DualDecompositionMPI.p_el_schedules passes junk extracted)
      = fun t => ((List.range m).map fun j => extracted (j + 1) t).sum - extracted 0 t := by
  funext t
  unfold DualDecompositionMPI.residual_r
  rw [npSumRows_apply, p_el_schedules_rows m passes junk extracted hpass t,
    p_el_schedules_zero]
  ring

/-- C2: at every iteration, the residual norm appended to the residual
history is the infinity norm, over timesteps below the horizon, of the
imbalance (sum of the extracted node trajectories minus the extracted
aggregator trajectory): it dominates every timestep and is attained at one
whenever the horizon is positive. The conjunction covers the
single-process function and the MPI variant. -/
theorem primal_residual_norm :
    (∀ (cfg : DDConfig) (oracle : SolverOracle) (st : DDState) (evs : List DDEvent)
        (P : ℕ → Vec) (P0 : Vec),
      (∀ n ∈ cfg.node_ids, cfg.solvable n = true) →
      0 ∉ cfg.node_ids →
      (∀ n ∈ cfg.node_ids, oracle (st.iteration + 1) n = some (P n)) →
      oracle (st.iteration + 1) 0 = some P0 →
      ∃ st' evs1 rn, ddIteration cfg oracle st evs = .ok (st', evs1)
        ∧ st'.r_norms = st.r_norms ++ [((rn : ℚ) : WithTop ℚ)]
        ∧ (∀ t < cfg.op_horizon,
            |(cfg.node_ids.map fun n => P n t).sum - P0 t| ≤ rn)
        ∧ (1 ≤ cfg.op_horizon → ∃ t < cfg.op_horizon,
            rn = |(cfg.node_ids.map fun n => P n t).sum - P0 t|))
    ∧ (∀ (m H : ℕ) (passes : ℕ → Bool) (junk extracted : ℕ → Vec),
      (∀ j, 1 ≤ j → j < m + 1 → passes j = true) →
      (∀ t < H, |((List.range m).map fun j => extracted (j + 1) t).sum - extracted 0 t|
          ≤ DualDecompositionMPI.r_norm_entry (m + 1) H
              (DualDecompositionMPI.p_el_schedules passes junk extracted))
      ∧ (1 ≤ H → ∃ t < H,
          DualDecompositionMPI.r_norm_entry (m + 1) H
              (DualDecompositionMPI.p_el_schedules passes junk extracted)
            = |((List.range m).map fun j => extracted (j + 1) t).sum - extracted 0 t|)) := by
  constructor
  · intro cfg oracle st evs P P0 hall h0 hsol hagg
    obtain ⟨ext, heq, _⟩ :=
      ddIteration_ok cfg oracle st evs P P0 (fun n hn _ => hsol n hn) hagg
    refine ⟨_, _,
      residualNorm cfg.op_horizon (residualVec (postSolveScheds cfg st P P0) cfg.node_ids),
      heq, rfl, ?_, ?_⟩
    · intro t ht
      have h2 := residualNorm_le cfg.op_horizon
        (residualVec (postSolveScheds cfg st P P0) cfg.node_ids) t ht
      rw [residualVec_postSolve cfg st P P0 hall h0] at h2 ⊢
      simpa using h2
    · intro hH
      obtain ⟨t, ht, hval⟩ := residualNorm_attained cfg.op_horizon
        (residualVec (postSolveScheds cfg st P P0) cfg.node_ids) hH
      refine ⟨t, ht, ?_⟩
      rw [residualVec_postSolve cfg st P P0 hall h0] at hval ⊢
      simpa using hval
  · intro m H passes junk extracted hpass
    have hbridge : DualDecompositionMPI.r_norm_entry (m + 1) H
        (DualDecompositionMPI.p_el_schedules passes junk extracted)
        = residualNorm H
            (DualDecompositionMPI.residual_r (m + 1)
              (DualDecompositionMPI.p_el_schedules passes junk extracted)) :=
      npInfNorm_eq_residualNorm H _
    constructor
    · intro t ht
      have h2 := residualNorm_le H
        (DualDecompositionMPI.residual_r (m + 1)
          (DualDecompositionMPI.p_el_schedules passes junk extracted)) t ht
      rw [hbridge, mpi_residual_r_eq m passes junk extracted hpass]
      rw [mpi_residual_r_eq m passes junk extracted hpass] at h2
      simpa using h2
    · intro hH
      obtain ⟨t, ht, hval⟩ := residualNorm_attained H
        (DualDecompositionMPI.residual_r (m + 1)
          (DualDecompositionMPI.p_el_schedules passes junk extracted)) hH
      refine ⟨t, ht, ?_⟩
      rw [hbridge, mpi_residual_r_eq m passes junk extracted hpass]
      rw [mpi_residual_r_eq m passes junk extracted hpass] at hval
      simpa using hval

/-- Witness for C2 at the concrete district wCfg, oracle wOrc, round 1 from
the initial state, and at the concrete three-entity MPI iteration. -/
theorem primal_residual_norm_witness :
    (∃ st' evs1 rn, ddIteration wCfg wOrc wSt [] = .ok (st', evs1)
      ∧ st'.r_norms = wSt.r_norms ++ [((rn : ℚ) : WithTop ℚ)]
      ∧ (∀ t < wCfg.op_horizon,
          |(wCfg.node_ids.map fun n => wOrcT 1 n t).sum - wOrcT 1 0 t| ≤ rn)
      ∧ (1 ≤ wCfg.op_horizon → ∃ t < wCfg.op_horizon,
          rn = |(wCfg.node_ids.map fun n => wOrcT 1 n t).sum - wOrcT 1 0 t|))
    ∧ ((∀ t < 4, |((List.range 2).map fun j => wOrcT 1 (j + 1) t).sum - wOrcT 1 0 t|
          ≤ DualDecompositionMPI.r_norm_entry (2 + 1) 4
              (DualDecompositionMPI.p_el_schedules (fun _ => true) (fun _ _ => 7) (wOrcT 1)))
      ∧ (1 ≤ 4 → ∃ t < 4,
          DualDecompositionMPI.r_norm_entry (2 + 1) 4
              (DualDecompositionMPI.p_el_schedules (fun _ => true) (fun _ _ => 7) (wOrcT 1))
            = |((List.range 2).map fun j => wOrcT 1 (j + 1) t).sum - wOrcT 1 0 t|)) :=
  ⟨primal_residual_norm.1 wCfg wOrc wSt [] (fun n => wOrcT 1 n) (wOrcT 1 0)
      (by decide) (by decide) (fun n _ => rfl) rfl,
    primal_residual_norm.2 2 4 (fun _ => true) (fun _ _ => 7) (wOrcT 1)
      (fun j _ _ => rfl)⟩

theorem ddLoop_zero_pos (cfg : DDConfig) (oracle : SolverOracle) (st : DDState)
    (evs : List DDEvent) (hc : (cfg.eps_primal : WithTop ℚ) < lastNorm st.r_norms) :
    ddLoop cfg oracle 0 st evs = ⟨.MaxIterationError, evs, st.r_norms⟩ := by
  simp only [ddLoop]
  rw [if_pos hc]

theorem ddLoop_exit (cfg : DDConfig) (oracle : SolverOracle) (fuel : ℕ) (st : DDState)
    (evs : List DDEvent) (hc : ¬((cfg.eps_primal : WithTop ℚ) < lastNorm st.r_norms)) :
    ddLoop cfg oracle fuel st evs
      = ⟨.success st.iteration st.r_norms ((List.range cfg.op_horizon).map st.lambdas),
          evs ++ [.update_schedule 0] ++ cfg.node_ids.map .update_schedule,
          st.r_norms⟩ := by
  cases fuel with
  | zero => simp only [ddLoop]; rw [if_neg hc]
  | succ fuel' => simp only [ddLoop]; rw [if_neg hc]

theorem ddLoop_succ_pos (cfg : DDConfig) (oracle : SolverOracle) (fuel : ℕ) (st : DDState)
    (evs : List DDEvent) (hc : (cfg.eps_primal : WithTop ℚ) < lastNorm st.r_norms) :
    ddLoop cfg oracle (fuel + 1) st evs
      = match ddIteration cfg oracle st evs with
        | .error evs1 => ⟨.NonoptimalError, evs1, st.r_norms⟩
        | .ok (st', evs1) => ddLoop cfg oracle fuel st' evs1 := by
  simp only [ddLoop]
  rw [if_pos hc]

theorem solveNodes_err_or_ok (oracle : SolverOracle) (iter : ℕ) (solvable : ℕ → Bool) :
    ∀ (l : List ℕ) (scheds : ℕ → Vec) (evs : List DDEvent),
      (∃ sch2 ext, solveNodes oracle iter solvable l scheds evs = .ok (sch2, evs ++ ext)
        ∧ ∀ e ∈ ext, ∃ n, e = .solve n iter true)
      ∨ (∃ ext, solveNodes oracle iter solvable l scheds evs = .error (evs ++ ext)
        ∧ (∀ e ∈ ext, ∃ n b, e = .solve n iter b)
        ∧ ∃ e ∈ ext, ∃ n, e = .solve n iter false) := by
  intro l
  induction l with
  | nil =>
    intro scheds evs
    exact Or.inl ⟨scheds, [], by simp [solveNodes], by simp⟩
  | cons n rest ih =>
    intro scheds evs
    by_cases hs : solvable n = true
    · cases ho : oracle iter n with
      | none =>
        refine Or.inr ⟨[.solve n iter false], ?_, ?_, ?_⟩
        · simp only [solveNodes]
          rw [if_pos hs, ho]
        · intro e he
          rcases List.mem_singleton.mp he with rfl
          exact ⟨n, false, rfl⟩
        · exact ⟨.solve n iter false, List.mem_singleton.mpr rfl, n, rfl⟩
      | some p =>
        have hstep : solveNodes oracle iter solvable (n :: rest) scheds evs
            = solveNodes oracle iter solvable rest
                (fun m => if m = n then p else scheds m) (evs ++ [.solve n iter true]) := by
          simp only [solveNodes]
          rw [if_pos hs, ho]
        rcases ih (fun m => if m = n then p else scheds m) (evs ++ [.solve n iter true]) with
          ⟨sch2, ext, hok, hext⟩ | ⟨ext, herr, hext, hfail⟩
        · refine Or.inl ⟨sch2, .solve n iter true :: ext, ?_, ?_⟩
          · rw [hstep, hok, List.append_assoc]
            rfl
          · intro e he
            rcases List.mem_cons.mp he with rfl | h
            · exact ⟨n, rfl⟩
            · exact hext e h
        · refine Or.inr ⟨.solve n iter true :: ext, ?_, ?_, ?_⟩
          · rw [hstep, herr, List.append_assoc]
            rfl
          · intro e he
            rcases List.mem_cons.mp he with rfl | h
            · exact ⟨n, true, rfl⟩
            · exact hext e h
          · obtain ⟨e, he, hn⟩ := hfail
            exact ⟨e, List.mem_cons_of_mem _ he, hn⟩
    · have hstep : solveNodes oracle iter solvable (n :: rest) scheds evs
          = solveNodes oracle iter solvable rest scheds evs := by
        simp only [solveNodes]
        rw [if_neg hs]
      rcases ih scheds evs with ⟨sch2, ext, hok, hext⟩ | ⟨ext, herr, hext, hfail⟩
      · exact Or.inl ⟨sch2, ext, hstep ▸ hok, hext⟩
      · exact Or.inr ⟨ext, hstep ▸ herr, hext, hfail⟩

theorem ddIteration_cases (cfg : DDConfig) (oracle : SolverOracle) (st : DDState)
    (evs : List DDEvent) :
    (∃ st' ext, ddIteration cfg oracle st evs = .ok (st', evs ++ ext)
      ∧ st'.iteration = st.iteration + 1
      ∧ (∃ rn : ℚ, st'.r_norms = st.r_norms ++ [((rn : ℚ) : WithTop ℚ)])
      ∧ ∀ e ∈ ext, ∃ n, e = .solve n (st.iteration + 1) true)
    ∨ (∃ ext, ddIteration cfg oracle st evs = .error (evs ++ ext)
      ∧ (∀ e ∈ ext, ∃ n b, e = .solve n (st.iteration + 1) b)
      ∧ ∃ e ∈ ext, ∃ n, e = .solve n (st.iteration + 1) false) := by
  rcases solveNodes_err_or_ok oracle (st.iteration + 1) cfg.solvable cfg.node_ids
      st.scheds evs with ⟨sch2, ext, hok, hext⟩ | ⟨ext, herr, hext, hfail⟩
  · cases h0 : oracle (st.iteration + 1) 0 with
    | none =>
      refine Or.inr ⟨ext ++ [.solve 0 (st.iteration + 1) false], ?_, ?_, ?_⟩
      · simp only [ddIteration]
        rw [hok, h0, ← List.append_assoc]
      · intro e he
        rcases List.mem_append.mp he with h | h
        · obtain ⟨n, rfl⟩ := hext e h
          exact ⟨n, true, rfl⟩
        · rcases List.mem_singleton.mp h with rfl
          exact ⟨0, false, rfl⟩
      · exact ⟨.solve 0 (st.iteration + 1) false,
          List.mem_append.mpr (Or.inr (List.mem_singleton.mpr rfl)), 0, rfl⟩
    | some p0 =>
      have hstep : ddIteration cfg oracle st evs
          = .ok (⟨st.iteration + 1,
              lambdaUpdate cfg.rho st.lambdas (fun m => if m = 0 then p0 else sch2 m)
                cfg.node_ids,
              fun m => if m = 0 then p0 else sch2 m,
              st.r_norms ++ [((residualNorm cfg.op_horizon
                (residualVec (fun m => if m = 0 then p0 else sch2 m) cfg.node_ids) : ℚ)
                  : WithTop ℚ)]⟩,
            evs ++ (ext ++ [.solve 0 (st.iteration + 1) true])) := by
        simp only [ddIteration]
        rw [hok, h0, ← List.append_assoc]
      refine Or.inl ⟨_, ext ++ [.solve 0 (st.iteration + 1) true], hstep, rfl,
        ⟨_, rfl⟩, ?_⟩
      intro e he
      rcases List.mem_append.mp he with h | h
      · exact hext e h
      · rcases List.mem_singleton.mp h with rfl
        exact ⟨0, rfl⟩
  · refine Or.inr ⟨ext, ?_, hext, hfail⟩
    simp only [ddIteration]
    rw [herr]

theorem updateEvents_append (a b : List DDEvent) :
    updateEvents (a ++ b) = updateEvents a ++ updateEvents b :=
  List.filter_append a b

theorem updateEvents_solves (ext : List DDEvent) (iter : ℕ)
    (h : ∀ e ∈ ext, ∃ n b, e = .solve n iter b) :
    updateEvents ext = [] := by
  apply List.filter_eq_nil_iff.mpr
  intro e he
  obtain ⟨n, b, rfl⟩ := h e he
  simp

theorem updateEvents_postsolve (node_ids : List ℕ) (evs : List DDEvent) :
    updateEvents (evs ++ [.update_schedule 0] ++ node_ids.map DDEvent.update_schedule)
      = updateEvents evs ++ (.update_schedule 0 :: node_ids.map DDEvent.update_schedule) := by
  rw [updateEvents_append, updateEvents_append]
  have h1 : updateEvents [.update_schedule 0] = [.update_schedule 0] := rfl
  have h2 : updateEvents (node_ids.map DDEvent.update_schedule)
      = node_ids.map DDEvent.update_schedule := by
    apply List.filter_eq_self.mpr
    intro e he
    obtain ⟨n, _, rfl⟩ := List.mem_map.mp he
    simp
  rw [h1, h2, List.append_assoc]
  rfl

theorem hasFailedSolve_append (a b : List DDEvent) :
    hasFailedSolve (a ++ b) = (hasFailedSolve a || hasFailedSolve b) :=
  List.any_append

theorem hasFailedSolve_solves_ok (ext : List DDEvent) (iter : ℕ)
    (h : ∀ e ∈ ext, ∃ n, e = .solve n iter true) :
    hasFailedSolve ext = false := by
  apply List.any_eq_false.mpr
  intro e he
  obtain ⟨n, rfl⟩ := h e he
  simp

theorem hasFailedSolve_updates (node_ids : List ℕ) :
    hasFailedSolve (node_ids.map DDEvent.update_schedule) = false := by
  apply List.any_eq_false.mpr
  intro e he
  obtain ⟨n, _, rfl⟩ := List.mem_map.mp he
  simp

theorem hasFailedSolve_of_fail (ext : List DDEvent) (iter n : ℕ)
    (he : DDEvent.solve n iter false ∈ ext) :
    hasFailedSolve ext = true :=
  List.any_eq_true.mpr ⟨_, he, rfl⟩

theorem ddLoop_events (cfg : DDConfig) (oracle : SolverOracle) :
    ∀ (fuel : ℕ) (st : DDState) (evs : List DDEvent),
      (∀ k hist lam, (ddLoop cfg oracle fuel st evs).result = .success k hist lam →
        updateEvents (ddLoop cfg oracle fuel st evs).events
            = updateEvents evs
              ++ (.update_schedule 0 :: cfg.node_ids.map DDEvent.update_schedule)
          ∧ hasFailedSolve (ddLoop cfg oracle fuel st evs).events = hasFailedSolve evs)
      ∧ ((ddLoop cfg oracle fuel st evs).result = .MaxIterationError →
        updateEvents (ddLoop cfg oracle fuel st evs).events = updateEvents evs
          ∧ hasFailedSolve (ddLoop cfg oracle fuel st evs).events = hasFailedSolve evs)
      ∧ ((ddLoop cfg oracle fuel st evs).result = .NonoptimalError →
        updateEvents (ddLoop cfg oracle fuel st evs).events = updateEvents evs
          ∧ hasFailedSolve (ddLoop cfg oracle fuel st evs).events = true) := by
  intro fuel
  induction fuel with
  | zero =>
    intro st evs
    by_cases hc : (cfg.eps_primal : WithTop ℚ) < lastNorm st.r_norms
    · rw [ddLoop_zero_pos cfg oracle st evs hc]
      refine ⟨?_, ?_, ?_⟩
      · intro k hist lam h
        simp at h
      · intro _
        exact ⟨rfl, rfl⟩
      · intro h
        simp at h
    · rw [ddLoop_exit cfg oracle 0 st evs hc]
      refine ⟨?_, ?_, ?_⟩
      · intro k hist lam _
        refine ⟨updateEvents_postsolve cfg.node_ids evs, ?_⟩
        show hasFailedSolve (evs ++ [.update_schedule 0] ++ _) = _
        rw [hasFailedSolve_append, hasFailedSolve_append, hasFailedSolve_updates]
        simp [hasFailedSolve]
      · intro h
        simp at h
      · intro h
        simp at h
  | succ fuel' ih =>
    intro st evs
    by_cases hc : (cfg.eps_primal : WithTop ℚ) < lastNorm st.r_norms
    · rw [ddLoop_succ_pos cfg oracle fuel' st evs hc]
      rcases ddIteration_cases cfg oracle st evs with
        ⟨st', ext, hok, _, _, hext⟩ | ⟨ext, herr, hext, hfail⟩
      · rw [hok]
        have hupd : updateEvents (evs ++ ext) = updateEvents evs := by
          rw [updateEvents_append,
            updateEvents_solves ext (st.iteration + 1) (fun e he =>
              (hext e he).elim fun n hn => ⟨n, true, hn⟩),
            List.append_nil]
        have hfailevs : hasFailedSolve (evs ++ ext) = hasFailedSolve evs := by
          rw [hasFailedSolve_append, hasFailedSolve_solves_ok ext (st.iteration + 1) hext,
            Bool.or_false]
        obtain ⟨ih1, ih2, ih3⟩ := ih st' (evs ++ ext)
        refine ⟨?_, ?_, ?_⟩
        · intro k hist lam h
          obtain ⟨ha, hb⟩ := ih1 k hist lam h
          exact ⟨by rw [ha, hupd], by rw [hb, hfailevs]⟩
        · intro h
          obtain ⟨ha, hb⟩ := ih2 h
          exact ⟨by rw [ha, hupd], by rw [hb, hfailevs]⟩
        · intro h
          obtain ⟨ha, hb⟩ := ih3 h
          exact ⟨by rw [ha, hupd], hb⟩
      · rw [herr]
        refine ⟨?_, ?_, ?_⟩
        · intro k hist lam h
          simp at h
        · intro h
          simp at h
        · intro _
          constructor
          · show updateEvents (evs ++ ext) = updateEvents evs
            rw [updateEvents_append, updateEvents_solves ext (st.iteration + 1) hext,
              List.append_nil]
          · show hasFailedSolve (evs ++ ext) = true
            obtain ⟨e, he, n, rfl⟩ := hfail
            rw [hasFailedSolve_append,
              hasFailedSolve_of_fail ext (st.iteration + 1) n he, Bool.or_true]
    · rw [ddLoop_exit cfg oracle (fuel' + 1) st evs hc]
      refine ⟨?_, ?_, ?_⟩
      · intro k hist lam _
        refine ⟨updateEvents_postsolve cfg.node_ids evs, ?_⟩
        show hasFailedSolve (evs ++ [.update_schedule 0] ++ _) = _
        rw [hasFailedSolve_append, hasFailedSolve_append, hasFailedSolve_updates]
        simp [hasFailedSolve]
      · intro h
        simp at h
      · intro h
        simp at h

theorem ddLoop_history (cfg : DDConfig) (oracle : SolverOracle) :
    ∀ (fuel : ℕ) (st : DDState) (evs : List DDEvent),
      st.r_norms.length = st.iteration + 1 →
      st.iteration + fuel = cfg.max_iterations →
      (∀ k hist lam, (ddLoop cfg oracle fuel st evs).result = .success k hist lam →
        hist = (ddLoop cfg oracle fuel st evs).history ∧ hist.length = k + 1)
      ∧ ((ddLoop cfg oracle fuel st evs).result = .MaxIterationError →
        (ddLoop cfg oracle fuel st evs).history.length = cfg.max_iterations + 1) := by
  intro fuel
  induction fuel with
  | zero =>
    intro st evs hlen hiter
    by_cases hc : (cfg.eps_primal : WithTop ℚ) < lastNorm st.r_norms
    · rw [ddLoop_zero_pos cfg oracle st evs hc]
      refine ⟨?_, ?_⟩
      · intro k hist lam h
        simp at h
      · intro _
        show st.r_norms.length = cfg.max_iterations + 1
        omega
    · rw [ddLoop_exit cfg oracle 0 st evs hc]
      refine ⟨?_, ?_⟩
      · intro k hist lam h
        have h2 : DDResult.success st.iteration st.r_norms
            ((List.range cfg.op_horizon).map st.lambdas) = .success k hist lam := h
        cases h2
        exact ⟨rfl, hlen⟩
      · intro h
        simp at h
  | succ fuel' ih =>
    intro st evs hlen hiter
    by_cases hc : (cfg.eps_primal : WithTop ℚ) < lastNorm st.r_norms
    · rw [ddLoop_succ_pos cfg oracle fuel' st evs hc]
      rcases ddIteration_cases cfg oracle st evs with
        ⟨st', ext, hok, hit, ⟨rn, hrn⟩, _⟩ | ⟨ext, herr, _, _⟩
      · rw [hok]
        have hlen' : st'.r_norms.length = st'.iteration + 1 := by
          rw [hrn, hit, List.length_append, hlen]
          rfl
        have hiter' : st'.iteration + fuel' = cfg.max_iterations := by
          rw [hit]; omega
        exact ih st' (evs ++ ext) hlen' hiter'
      · rw [herr]
        refine ⟨?_, ?_⟩
        · intro k hist lam h
          simp at h
        · intro h
          simp at h
    · rw [ddLoop_exit cfg oracle (fuel' + 1) st evs hc]
      refine ⟨?_, ?_⟩
      · intro k hist lam h
        have h2 : DDResult.success st.iteration st.r_norms
            ((List.range cfg.op_horizon).map st.lambdas) = .success k hist lam := h
        cases h2
        exact ⟨rfl, hlen⟩
      · intro h
        simp at h

/-- Oracle in which every solve is optimal and returns the given
trajectory. -/
def totalize (o : ℕ → ℕ → Vec) : SolverOracle := fun k n => some (o k n)

/-- The P_El_Schedules map after round k of a run against a fully optimal
oracle: the aggregator and the filtered nodes hold the trajectories of
round k, every skipped node still holds its initial zeros. -/
def roundScheds (cfg : DDConfig) (o : ℕ → ℕ → Vec) (k : ℕ) : ℕ → Vec :=
  fun m => if m = 0 then o k 0
    else if m ∈ cfg.node_ids ∧ cfg.solvable m = true then o k m else fun _ => 0

/-- The residual norm the run computes in round k against a fully optimal
oracle; it depends only on the round and the oracle. -/
def roundResidualNorm (cfg : DDConfig) (o : ℕ → ℕ → Vec) (k : ℕ) : ℚ :=
  residualNorm cfg.op_horizon (residualVec (roundScheds cfg o k) cfg.node_ids)

/-- Skipped nodes keep zeroed schedules across the loop. -/
def NSZ (cfg : DDConfig) (st : DDState) : Prop :=
  ∀ m ∈ cfg.node_ids, cfg.solvable m = false → st.scheds m = fun _ => 0

theorem NSZ_postSolve (cfg : DDConfig) (st : DDState) (P : ℕ → Vec) (P0 : Vec)
    (h0 : 0 ∉ cfg.node_ids) (h : NSZ cfg st) :
    ∀ m ∈ cfg.node_ids, cfg.solvable m = false →
      postSolveScheds cfg st P P0 m = fun _ => 0 := by
  intro m hm hsm
  have hm0 : ¬(m = 0) := fun he => h0 (he ▸ hm)
  simp [postSolveScheds, hm0, hsm, h m hm hsm]

theorem residualVec_roundScheds (cfg : DDConfig) (st : DDState) (o : ℕ → ℕ → Vec)
    (k : ℕ) (h0 : 0 ∉ cfg.node_ids) (hNSZ : NSZ cfg st) :
    residualVec (postSolveScheds cfg st (fun n => o k n) (o k 0)) cfg.node_ids
      = residualVec (roundScheds cfg o k) cfg.node_ids := by
  funext t
  rw [residualVec_apply, residualVec_apply]
  have hzero : postSolveScheds cfg st (fun n => o k n) (o k 0) 0 t
      = roundScheds cfg o k 0 t := by
    simp [postSolveScheds, roundScheds]
  have hmap : (cfg.node_ids.map fun n =>
        postSolveScheds cfg st (fun n => o k n) (o k 0) n t)
      = cfg.node_ids.map fun n => roundScheds cfg o k n t := by
    apply List.map_congr_left
    intro n hn
    have hn0 : ¬(n = 0) := fun he => h0 (he ▸ hn)
    by_cases hs : cfg.solvable n = true
    · simp [postSolveScheds, roundScheds, hn0, hn, hs]
    · have hsf : cfg.solvable n = false := by
        cases hb : cfg.solvable n
        · rfl
        · exact absurd hb hs
      have := hNSZ n hn hsf
      simp [postSolveScheds, roundScheds, hn0, hn, hsf, this]
  rw [hzero, hmap]

theorem ddLoop_term (cfg : DDConfig) (o : ℕ → ℕ → Vec) (h0 : 0 ∉ cfg.node_ids) :
    ∀ (fuel : ℕ) (st : DDState) (evs : List DDEvent),
      NSZ cfg st →
      ((st.iteration = 0 ∧ lastNorm st.r_norms = ⊤)
        ∨ (1 ≤ st.iteration
            ∧ lastNorm st.r_norms
              = ((roundResidualNorm cfg o st.iteration : ℚ) : WithTop ℚ))) →
      (st.iteration = 0 ∨ cfg.eps_primal < roundResidualNorm cfg o st.iteration) →
      (∀ k0, st.iteration < k0 → k0 ≤ st.iteration + fuel →
        roundResidualNorm cfg o k0 ≤ cfg.eps_primal →
        (∀ j, st.iteration < j → j < k0 → cfg.eps_primal < roundResidualNorm cfg o j) →
        ∃ hist lam,
          (ddLoop cfg (totalize o) fuel st evs).result = .success k0 hist lam)
      ∧ ((∀ j, st.iteration < j → j ≤ st.iteration + fuel →
            cfg.eps_primal < roundResidualNorm cfg o j) →
        (ddLoop cfg (totalize o) fuel st evs).result = .MaxIterationError) := by
  intro fuel
  induction fuel with
  | zero =>
    intro st evs hNSZ hlast hcont
    have hc : (cfg.eps_primal : WithTop ℚ) < lastNorm st.r_norms := by
      rcases hlast with ⟨h0it, htop⟩ | ⟨h1, heq⟩
      · rw [htop]; exact WithTop.coe_lt_top _
      · rw [heq]
        rcases hcont with h | h
        · exact absurd h1 (by omega)
        · exact WithTop.coe_lt_coe.mpr h
    constructor
    · intro k0 hk1 hk2 _ _
      exact absurd hk2 (by omega)
    · intro _
      rw [ddLoop_zero_pos cfg (totalize o) st evs hc]
  | succ fuel' ih =>
    intro st evs hNSZ hlast hcont
    have hc : (cfg.eps_primal : WithTop ℚ) < lastNorm st.r_norms := by
      rcases hlast with ⟨h0it, htop⟩ | ⟨h1, heq⟩
      · rw [htop]; exact WithTop.coe_lt_top _
      · rw [heq]
        rcases hcont with h | h
        · exact absurd h1 (by omega)
        · exact WithTop.coe_lt_coe.mpr h
    obtain ⟨ext, heq, _⟩ := ddIteration_ok cfg (totalize o) st evs
      (fun n => o (st.iteration + 1) n) (o (st.iteration + 1) 0)
      (fun n hn _ => rfl) rfl
    rw [residualVec_roundScheds cfg st o (st.iteration + 1) h0 hNSZ] at heq
    refine (fun (st' : DDState) (hloop : ddLoop cfg (totalize o) (fuel' + 1) st evs
        = ddLoop cfg (totalize o) fuel' st' (evs ++ ext)) (hsti : st'.iteration = st.iteration + 1)
        (hrnorms : st'.r_norms = st.r_norms
          ++ [((roundResidualNorm cfg o (st.iteration + 1) : ℚ) : WithTop ℚ)])
        (hNSZ' : NSZ cfg st') => ?_)
      ⟨st.iteration + 1,
        lambdaUpdate cfg.rho st.lambdas
          (postSolveScheds cfg st (fun n => o (st.iteration + 1) n) (o (st.iteration + 1) 0))
          cfg.node_ids,
        postSolveScheds cfg st (fun n => o (st.iteration + 1) n) (o (st.iteration + 1) 0),
        st.r_norms ++ [((roundResidualNorm cfg o (st.iteration + 1) : ℚ) : WithTop ℚ)]⟩
      (by rw [ddLoop_succ_pos cfg (totalize o) fuel' st evs hc, heq]; rfl)
      rfl rfl
      (fun m hm hsm => NSZ_postSolve cfg st _ _ h0 hNSZ m hm hsm)
    have hlastEq : lastNorm st'.r_norms
        = ((roundResidualNorm cfg o (st.iteration + 1) : ℚ) : WithTop ℚ) := by
      rw [hrnorms]
      exact List.getLastD_concat _ _ _
    have hlast' : (st'.iteration = 0 ∧ lastNorm st'.r_norms = ⊤)
        ∨ (1 ≤ st'.iteration
            ∧ lastNorm st'.r_norms
              = ((roundResidualNorm cfg o st'.iteration : ℚ) : WithTop ℚ)) := by
      refine Or.inr ⟨by omega, ?_⟩
      rw [hsti, hlastEq]
    constructor
    · intro k0 hk1 hk2 hk3 hk4
      by_cases hke : k0 = st.iteration + 1
      · subst hke
        have hnc : ¬((cfg.eps_primal : WithTop ℚ) < lastNorm st'.r_norms) := by
          rw [hlastEq]
          exact not_lt.mpr (WithTop.coe_le_coe.mpr hk3)
        refine ⟨st'.r_norms, (List.range cfg.op_horizon).map st'.lambdas, ?_⟩
        rw [hloop, ddLoop_exit cfg (totalize o) fuel' st' (evs ++ ext) hnc]
        show DDResult.success st'.iteration _ _ = _
        rw [hsti]
      · have hmin : cfg.eps_primal < roundResidualNorm cfg o (st.iteration + 1) :=
          hk4 (st.iteration + 1) (by omega) (by omega)
        obtain ⟨ihA, _⟩ := ih st' (evs ++ ext) hNSZ' hlast' (by rw [hsti]; exact Or.inr hmin)
        obtain ⟨hist, lam, hres⟩ := ihA k0 (by omega) (by omega) hk3
          (fun j hj1 hj2 => hk4 j (by omega) hj2)
        exact ⟨hist, lam, by rw [hloop]; exact hres⟩
    · intro hb
      have hmin : cfg.eps_primal < roundResidualNorm cfg o (st.iteration + 1) :=
        hb (st.iteration + 1) (by omega) (by omega)
      obtain ⟨_, ihB⟩ := ih st' (evs ++ ext) hNSZ' hlast' (by rw [hsti]; exact Or.inr hmin)
      have hres := ihB (fun j hj1 hj2 => hb j (by omega) (by omega))
      rw [hloop]
      exact hres

/-- C3: against a fully optimal solver oracle, dual_decomposition returns
normally at the first iteration whose primal residual norm is at or below
eps_primal, and raises MaxIterationError when the iteration counter exceeds
max_iterations before that tolerance is reached; the two cases are
exhaustive, so no other termination path exists on optimal solves. -/
theorem dual_decomposition_termination (cfg : DDConfig) (o : ℕ → ℕ → Vec)
    (h0 : 0 ∉ cfg.node_ids) :
    (∀ k0, 1 ≤ k0 → k0 ≤ cfg.max_iterations →
      roundResidualNorm cfg o k0 ≤ cfg.eps_primal →
      (∀ j, 1 ≤ j → j < k0 → cfg.eps_primal < roundResidualNorm cfg o j) →
      ∃ hist lam,
        (dual_decomposition cfg (totalize o)).result = .success k0 hist lam)
    ∧ ((∀ j, 1 ≤ j → j ≤ cfg.max_iterations →
          cfg.eps_primal < roundResidualNorm cfg o j) →
      (dual_decomposition cfg (totalize o)).result = .MaxIterationError) := by
  have hdd : dual_decomposition cfg (totalize o)
      = ddLoop cfg (totalize o) cfg.max_iterations ⟨0, fun _ => 0, fun _ _ => 0, [⊤]⟩ [] :=
    rfl
  have h := ddLoop_term cfg o h0 cfg.max_iterations ⟨0, fun _ => 0, fun _ _ => 0, [⊤]⟩ []
    (fun m _ _ => rfl) (Or.inl ⟨rfl, rfl⟩) (Or.inl rfl)
  constructor
  · intro k0 hk1 hk2 hk3 hk4
    rw [hdd]
    exact h.1 k0 hk1 (show k0 ≤ 0 + cfg.max_iterations by omega) hk3
      (fun j hj1 hj2 => hk4 j hj1 hj2)
  · intro hb
    rw [hdd]
    refine h.2 (fun j hj1 hj2 => hb j hj1 ?_)
    have hj2 : j ≤ 0 + cfg.max_iterations := hj2
    omega

/-- Witness for C3: with the oracle wOrcT the first round has residual norm
1 and the second 0, so with tolerance 0 and cap 5 the run returns at
iteration 2; with the cap forced to 1 the same oracle raises
MaxIterationError. -/
theorem dual_decomposition_termination_witness :
    (∃ hist lam,
      (dual_decomposition wCfg (totalize wOrcT)).result = .success 2 hist lam)
    ∧ (dual_decomposition wCfg1 (totalize wOrcT)).result = .MaxIterationError :=
  ⟨(dual_decomposition_termination wCfg wOrcT (by decide)).1 2 (by decide) (by decide)
      (by with_unfolding_all decide)
      (fun j h1 h2 => by
        have hj : j = 1 := by omega
        subst hj
        with_unfolding_all decide),
    (dual_decomposition_termination wCfg1 wOrcT (by decide)).2
      (fun j h1 h2 => by
        have h2a : j ≤ 1 := h2
        have hj : j = 1 := by omega
        subst hj
        with_unfolding_all decide)⟩

/-- Counterexample to C4 as stated: a run that converges after 2 iterations
returns a residual history of length 3 (the leading np.inf sentinel plus
one entry per iteration), not length 2. -/
theorem residual_history_length_counterexample :
    (dual_decomposition wCfg wOrc).result
        = .success 2 [⊤, ((1 : ℚ) : WithTop ℚ), ((0 : ℚ) : WithTop ℚ)] [(-1 : ℚ)]
      ∧ ([⊤, ((1 : ℚ) : WithTop ℚ), ((0 : ℚ) : WithTop ℚ)] : List (WithTop ℚ)).length ≠ 2 := by
  with_unfolding_all decide

/-- C4 amended: the residual history holds the initial infinity sentinel
plus one entry per completed iteration, so its length is the iteration
count plus one: at success the returned history has length iterations + 1,
and at MaxIterationError the internal history has max_iterations + 1
entries (with max_iterations = 1 on a non-converging district, the sentinel
plus exactly 1 computed entry). -/
theorem residual_history_length (cfg : DDConfig) (oracle : SolverOracle) :
    (∀ k hist lam, (dual_decomposition cfg oracle).result = .success k hist lam →
      hist = (dual_decomposition cfg oracle).history ∧ hist.length = k + 1)
    ∧ ((dual_decomposition cfg oracle).result = .MaxIterationError →
      (dual_decomposition cfg oracle).history.length = cfg.max_iterations + 1) :=
  ddLoop_history cfg oracle cfg.max_iterations ⟨0, fun _ => 0, fun _ _ => 0, [⊤]⟩ []
    rfl (show 0 + cfg.max_iterations = cfg.max_iterations by omega)

/-- Witness for C4 amended: the success run of wCfg has history length
2 + 1, and the run capped at max_iterations = 1 raises MaxIterationError
with internal history length 1 + 1. -/
theorem residual_history_length_witness :
    ([⊤, ((1 : ℚ) : WithTop ℚ), ((0 : ℚ) : WithTop ℚ)] : List (WithTop ℚ))
        = (dual_decomposition wCfg wOrc).history
      ∧ ([⊤, ((1 : ℚ) : WithTop ℚ), ((0 : ℚ) : WithTop ℚ)] : List (WithTop ℚ)).length = 2 + 1
      ∧ (dual_decomposition wCfg1 wOrc).history.length = wCfg1.max_iterations + 1 :=
  ⟨((residual_history_length wCfg wOrc).1 2 _ [(-1 : ℚ)]
      (by with_unfolding_all decide)).1,
    ((residual_history_length wCfg wOrc).1 2 _ [(-1 : ℚ)]
      (by with_unfolding_all decide)).2,
    (residual_history_length wCfg1 wOrc).2 (by with_unfolding_all decide)⟩

theorem indexOf_append_lt {α : Type} [DecidableEq α] :
    ∀ (l1 : List α) (l2 : List α) (a b : α), a ∈ l1 → b ∉ l1 →
      (l1 ++ l2).indexOf a < (l1 ++ l2).indexOf b := by
  intro l1
  induction l1 with
  | nil =>
    intro l2 a b ha _
    exact absurd ha (List.not_mem_nil a)
  | cons x rest ih =>
    intro l2 a b ha hb
    have hbx : ¬(x == b) = true := by
      intro h
      exact hb (by rw [← eq_of_beq h]; exact List.mem_cons_self x rest)
    have hbxf : (x == b) = false := by
      cases h : (x == b)
      · rfl
      · exact absurd h hbx
    by_cases hax : x = a
    · subst hax
      simp only [List.cons_append, List.indexOf_cons, beq_self_eq_true, hbxf,
        Bool.cond_true, Bool.cond_false]
      omega
    · have haxf : (x == a) = false := by
        cases h : (x == a)
        · rfl
        · exact absurd (eq_of_beq h) hax
      have ha' : a ∈ rest := by
        rcases List.mem_cons.mp ha with h | h
        · exact absurd h.symm hax
        · exact h
      have hb' : b ∉ rest := fun h => hb (List.mem_cons_of_mem x h)
      have hlt := ih l2 a b ha' hb'
      simp only [List.cons_append, List.indexOf_cons, haxf, hbxf, Bool.cond_false]
      omega

/-- Counterexample to C5 as stated: in a successful dual_decomposition run
the postsolve calls update_schedule on the city district (node id 0) first,
so entity 1's update_schedule is not called before the district's. -/
theorem postsolve_order_counterexample :
    updateEvents (dual_decomposition wCfg wOrc).events
        = [.update_schedule 0, .update_schedule 1, .update_schedule 2]
      ∧ ¬((updateEvents (dual_decomposition wCfg wOrc).events).indexOf
            (DDEvent.update_schedule 1)
          < (updateEvents (dual_decomposition wCfg wOrc).events).indexOf
            (DDEvent.update_schedule 0)) := by
  with_unfolding_all decide

/-- C5 amended: on success, central_optimization calls every node entity's
update_schedule before the city district's, but dual_decomposition calls
the city district's update_schedule first and then every node entity's in
node order. -/
theorem postsolve_update_order :
    (∀ (cfg : DDConfig) (oracle : SolverOracle) (k : ℕ) (hist : List (WithTop ℚ))
        (lam : List ℚ),
      (dual_decomposition cfg oracle).result = .success k hist lam →
      updateEvents (dual_decomposition cfg oracle).events
        = .update_schedule 0 :: cfg.node_ids.map DDEvent.update_schedule)
    ∧ (∀ (node_ids : List ℕ) (n : ℕ), n ∈ node_ids → 0 ∉ node_ids →
      (central_optimization_updates node_ids).indexOf (DDEvent.update_schedule n)
        < (central_optimization_updates node_ids).indexOf (DDEvent.update_schedule 0)) := by
  constructor
  · intro cfg oracle k hist lam h
    have hdd : dual_decomposition cfg oracle
        = ddLoop cfg oracle cfg.max_iterations ⟨0, fun _ => 0, fun _ _ => 0, [⊤]⟩ [] :=
      rfl
    rw [hdd] at h ⊢
    obtain ⟨h1, _, _⟩ := ddLoop_events cfg oracle cfg.max_iterations
      ⟨0, fun _ => 0, fun _ _ => 0, [⊤]⟩ []
    obtain ⟨ha, _⟩ := h1 k hist lam h
    rw [ha]
    rfl
  · intro node_ids n hn h0
    apply indexOf_append_lt
    · exact List.mem_map.mpr ⟨n, hn, rfl⟩
    · intro hmem
      obtain ⟨m, hm, he⟩ := List.mem_map.mp hmem
      cases he
      exact h0 hm

/-- Witness for C5 amended, at the successful concrete run and at the
two-node central postsolve. -/
theorem postsolve_update_order_witness :
    updateEvents (dual_decomposition wCfg wOrc).events
        = .update_schedule 0 :: wCfg.node_ids.map DDEvent.update_schedule
      ∧ (central_optimization_updates [1, 2]).indexOf (DDEvent.update_schedule 1)
          < (central_optimization_updates [1, 2]).indexOf (DDEvent.update_schedule 0) :=
  ⟨postsolve_update_order.1 wCfg wOrc 2
      [⊤, ((1 : ℚ) : WithTop ℚ), ((0 : ℚ) : WithTop ℚ)] [(-1 : ℚ)]
      (by with_unfolding_all decide),
    postsolve_update_order.2 [1, 2] 1 (by decide) (by decide)⟩

/-- C6: a dual_decomposition run raises NonoptimalError exactly when some
subproblem solve it performed reported a non-optimal status, and in that
case no entity's update_schedule is invoked in the run, so no partial
schedule is committed. -/
theorem nonoptimal_aborts (cfg : DDConfig) (oracle : SolverOracle) :
    ((dual_decomposition cfg oracle).result = .NonoptimalError ↔
      hasFailedSolve (dual_decomposition cfg oracle).events = true)
    ∧ ((dual_decomposition cfg oracle).result = .NonoptimalError →
      updateEvents (dual_decomposition cfg oracle).events = []) := by
  have hdd : dual_decomposition cfg oracle
      = ddLoop cfg oracle cfg.max_iterations ⟨0, fun _ => 0, fun _ _ => 0, [⊤]⟩ [] :=
    rfl
  rw [hdd]
  obtain ⟨h1, h2, h3⟩ := ddLoop_events cfg oracle cfg.max_iterations
    ⟨0, fun _ => 0, fun _ _ => 0, [⊤]⟩ []
  constructor
  · constructor
    · intro h
      exact (h3 h).2
    · intro h
      cases hres : (ddLoop cfg oracle cfg.max_iterations
          ⟨0, fun _ => 0, fun _ _ => 0, [⊤]⟩ []).result with
      | success k hist lam =>
        have hfe := (h1 k hist lam hres).2
        rw [h] at hfe
        exact absurd hfe (by decide)
      | MaxIterationError =>
        have hfe := (h2 hres).2
        rw [h] at hfe
        exact absurd hfe (by decide)
      | NonoptimalError => rfl
  · intro h
    rw [(h3 h).1]
    rfl

/-- Witness for C6: with the oracle wOrcFail, whose round-1 solve of node 2
is non-optimal, the run aborts with NonoptimalError and its trace holds a
failed solve event and no update_schedule event. -/
theorem nonoptimal_aborts_witness :
    (dual_decomposition wCfg wOrcFail).result = .NonoptimalError
      ∧ updateEvents (dual_decomposition wCfg wOrcFail).events = [] :=
  ⟨by with_unfolding_all decide,
    (nonoptimal_aborts wCfg wOrcFail).2 (by with_unfolding_all decide)⟩

/-- C7 evaluated at the failing inputs: for the mode string "peak" (neither
"convex" nor "integer") Boiler.populate_model and Chiller.populate_model
take the convex branch and return normally, because the Python condition
mode == "convex" or "integer" is always truthy and the ValueError branch is
unreachable; populate_models with an unknown algorithm name returns an
empty model dict instead of raising; only CityDistrict.populate_model
raises as the claim demands. -/
theorem mode_dispatch_bug :
    Boiler.populate_model "peak" = .applied
      ∧ Chiller.populate_model "peak" = .applied
      ∧ populate_models "unknown-algorithm" [1, 2] = []
      ∧ CityDistrict.populate_model "peak" = .ValueError := by
  decide

/-- C10: calling extract_pyomo_value with any explicit non-None var_type
never returns a value, because the local t is only assigned under
var_type is None; on any scheduled non-indexed variable, stale or not, the
call fails with UnboundLocalError. -/
theorem extract_pyomo_value_var_type_unusable (v : PyomoVar) (vt : VarDomainKind) :
    (∀ q, extract_pyomo_value v (some vt) ≠ .ok q)
    ∧ (v.has_stale = true → v.is_indexed = false →
      extract_pyomo_value v (some vt) = .UnboundLocalError) := by
  have hred : extract_pyomo_value v (some vt)
      = if v.has_stale = false then .ValueError
        else if v.is_indexed then .ValueError
        else .UnboundLocalError := by
    unfold extract_pyomo_value
    have ht : (if (some vt : Option VarDomainKind) = none
        then some v.domain else none) = none := by simp
    rw [ht]
    by_cases h1 : v.has_stale = false
    · rw [if_pos h1, if_pos h1]
    · rw [if_neg h1, if_neg h1]
      by_cases h2 : v.is_indexed
      · rw [if_pos h2, if_pos h2]
      · rw [if_neg h2, if_neg h2]
        by_cases h3 : v.stale
        · rw [if_pos h3]
        · rw [if_neg h3]
  constructor
  · intro q
    rw [hred]
    by_cases h1 : v.has_stale = false
    · rw [if_pos h1]
      exact fun h => by cases h
    · rw [if_neg h1]
      by_cases h2 : v.is_indexed
      · rw [if_pos h2]
        exact fun h => by cases h
      · rw [if_neg h2]
        exact fun h => by cases h
  · intro h1 h2
    rw [hred, if_neg (by rw [h1]; exact fun h => by cases h), if_neg (by rw [h2]; exact fun h => by cases h)]

/-- Witness for C10 on a concrete scheduled, non-indexed, non-stale
variable with var_type explicitly float. -/
theorem extract_pyomo_value_var_type_unusable_witness :
    extract_pyomo_value ⟨.floatT, none, none, false, true, false, 5⟩ (some .floatT)
      = .UnboundLocalError :=
  (extract_pyomo_value_var_type_unusable ⟨.floatT, none, none, false, true, false, 5⟩
    .floatT).2 rfl rfl

theorem count_flatten_replicate (a : ℕ) :
    ∀ (k i : ℕ),
      ((((List.range k).map fun j => List.replicate a (j + 1)).flatten).count i)
        = if 1 ≤ i ∧ i ≤ k then a else 0 := by
  intro k
  induction k with
  | zero =>
    intro i
    simp only [List.range_zero, List.map_nil, List.flatten_nil, List.count_nil]
    split_ifs with h <;> omega
  | succ k ih =>
    intro i
    rw [List.range_succ, List.map_append, List.flatten_append, List.count_append, ih]
    simp only [List.map_cons, List.map_nil, List.flatten_cons, List.flatten_nil,
      List.append_nil, List.count_replicate, beq_iff_eq]
    split_ifs with h1 h2 h3 h4 h5 h6 h7 <;> omega

theorem count_range_map_succ :
    ∀ (b i : ℕ),
      (((List.range b).map fun j => j + 1).count i) = if 1 ≤ i ∧ i ≤ b then 1 else 0 := by
  intro b
  induction b with
  | zero =>
    intro i
    simp only [List.range_zero, List.map_nil, List.count_nil]
    split_ifs with h <;> omega
  | succ b ih =>
    intro i
    rw [List.range_succ, List.map_append, List.count_append, ih]
    simp only [List.map_cons, List.map_nil, List.count_singleton, beq_iff_eq]
    split_ifs with h1 h2 h3 h4 h5 h6 h7 <;> omega

theorem length_flatten_replicate (a : ℕ) :
    ∀ (k : ℕ),
      (((List.range k).map fun j => List.replicate a (j + 1)).flatten).length = k * a := by
  intro k
  induction k with
  | zero => simp
  | succ k ih =>
    rw [List.range_succ, List.map_append, List.flatten_append, List.length_append, ih]
    simp [Nat.succ_mul]

theorem rank_id_range_unsorted_mid (n size : ℕ) (h1 : 1 < size) (h2 : size < n) :
    DualDecompositionMPI.rank_id_range_unsorted n size
      = 0 :: ((((List.range (size - 1)).map fun i =>
            List.replicate ((n - 1) / (size - 1)) (i + 1)).flatten)
          ++ ((List.range ((n - 1) % (size - 1))).map fun i => i + 1)) := by
  unfold DualDecompositionMPI.rank_id_range_unsorted
  rw [if_neg (by omega), if_pos h2, if_neg (by omega)]

/-- C9: for 1 < size < n the sorted rank assignment array has one entry per
node, assigns node 0 to rank 0 and only node 0 to rank 0, and gives every
worker rank i in 1..size-1 either (n-1)/(size-1) nodes or one more, the
larger shares going to the lowest such ranks (exactly those i at or below
the division remainder). -/
theorem mpi_rank_distribution (n size : ℕ) (h1 : 1 < size) (h2 : size < n) :
    (DualDecompositionMPI.rank_id_range n size).length = n
    ∧ (DualDecompositionMPI.rank_id_range n size).head? = some 0
    ∧ (DualDecompositionMPI.rank_id_range n size).count 0 = 1
    ∧ (∀ i, 1 ≤ i → i ≤ size - 1 →
        (DualDecompositionMPI.rank_id_range n size).count i
          = if i ≤ (n - 1) % (size - 1)
            then (n - 1) / (size - 1) + 1 else (n - 1) / (size - 1)) := by
  have hmid := rank_id_range_unsorted_mid n size h1 h2
  have hperm : (DualDecompositionMPI.rank_id_range n size).Perm
      (DualDecompositionMPI.rank_id_range_unsorted n size) :=
    List.mergeSort_perm _ _
  have hcount : ∀ i, (DualDecompositionMPI.rank_id_range n size).count i
      = (DualDecompositionMPI.rank_id_range_unsorted n size).count i :=
    fun i => hperm.count_eq i
  have hcountU : ∀ i, (DualDecompositionMPI.rank_id_range_unsorted n size).count i
      = ((if 1 ≤ i ∧ i ≤ size - 1 then (n - 1) / (size - 1) else 0)
          + (if 1 ≤ i ∧ i ≤ (n - 1) % (size - 1) then 1 else 0))
        + (if i = 0 then 1 else 0) := by
    intro i
    rw [hmid, List.count_cons, List.count_append, count_flatten_replicate,
      count_range_map_succ]
    congr 1
    simp only [beq_iff_eq]
    by_cases h : i = 0
    · rw [if_pos (by omega : (0 : ℕ) = i), if_pos h]
    · rw [if_neg (by omega : ¬(0 : ℕ) = i), if_neg h]
  have hdm := Nat.div_add_mod (n - 1) (size - 1)
  have hblt : (n - 1) % (size - 1) < size - 1 := Nat.mod_lt _ (by omega)
  refine ⟨?_, ?_, ?_, ?_⟩
  · rw [hperm.length_eq, hmid]
    simp only [List.length_cons, List.length_append, length_flatten_replicate,
      List.length_map, List.length_range]
    omega
  · have htrans : ∀ a b c : ℕ, DualDecompositionMPI.npSortLE a b = true →
        DualDecompositionMPI.npSortLE b c = true →
        DualDecompositionMPI.npSortLE a c = true := by
      intro a b c hab hbc
      simp only [DualDecompositionMPI.npSortLE, decide_eq_true_eq] at *
      omega
    have htotal : ∀ a b : ℕ,
        (DualDecompositionMPI.npSortLE a b || DualDecompositionMPI.npSortLE b a) = true := by
      intro a b
      simp only [DualDecompositionMPI.npSortLE]
      rcases Nat.le_total a b with h | h
      · simp [h]
      · simp [h]
    have hsorted := @List.sorted_mergeSort ℕ DualDecompositionMPI.npSortLE htrans htotal
      (DualDecompositionMPI.rank_id_range_unsorted n size)
    have h0mem : 0 ∈ DualDecompositionMPI.rank_id_range n size := by
      apply hperm.mem_iff.mpr
      rw [hmid]
      exact List.mem_cons_self _ _
    cases hl : DualDecompositionMPI.rank_id_range n size with
    | nil =>
      rw [hl] at h0mem
      exact absurd h0mem (List.not_mem_nil 0)
    | cons x xs =>
      have hp : List.Pairwise (fun a b => DualDecompositionMPI.npSortLE a b = true) (x :: xs) := by
        rw [← hl]
        exact hsorted
      have hx : ∀ y ∈ xs, x ≤ y := by
        intro y hy
        have := (List.pairwise_cons.mp hp).1 y hy
        simpa [DualDecompositionMPI.npSortLE] using this
      rw [hl] at h0mem
      show some x = some 0
      rcases List.mem_cons.mp h0mem with h | h
      · rw [← h]
      · have hx0 : x ≤ 0 := hx 0 h
        have hxz : x = 0 := Nat.le_zero.mp hx0
        rw [hxz]
  · rw [hcount 0, hcountU 0]
    split_ifs <;> omega
  · intro i hi1 hi2
    rw [hcount i, hcountU i]
    split_ifs <;> omega

/-- Witness for C9 at n = 6 nodes and size = 3 workers: the division of the
5 non-aggregator nodes is 2 remainder 1, so rank 1 owns 3 nodes and rank 2
owns 2. -/
theorem mpi_rank_distribution_witness :
    (DualDecompositionMPI.rank_id_range 6 3).length = 6
    ∧ (DualDecompositionMPI.rank_id_range 6 3).head? = some 0
    ∧ (DualDecompositionMPI.rank_id_range 6 3).count 0 = 1
    ∧ (∀ i, 1 ≤ i → i ≤ 3 - 1 →
        (DualDecompositionMPI.rank_id_range 6 3).count i
          = if i ≤ (6 - 1) % (3 - 1) then (6 - 1) / (3 - 1) + 1 else (6 - 1) / (3 - 1)) :=
  mpi_rank_distribution 6 3 (by decide) (by decide)

theorem extract_stale_eq (dom : VarDomainKind) (lb ub : Option ℚ) (value : ℚ) :
    extract_pyomo_value ⟨dom, lb, ub, true, true, false, value⟩ none
      = (if (match lb with
            | some l => decide (staleCast dom (staleSelect lb ub) < l)
            | none => false)
          || (match ub with
            | some u => decide (u < staleCast dom (staleSelect lb ub))
            | none => false)
        then .SchedulingError
        else .ok (pyCast dom (staleCast dom (staleSelect lb ub)))) := rfl

theorem abs_le_abs_neg {a b : ℚ} (hba : b ≤ a) (ha : a < 0) : |a| ≤ |b| := by
  rw [abs_of_neg ha, abs_of_neg (by linarith)]
  linarith

theorem abs_le_abs_pos {a b : ℚ} (ha : 0 < a) (hab : a ≤ b) : |a| ≤ |b| := by
  rw [abs_of_pos ha, abs_of_pos (by linarith)]
  linarith

theorem feasible_mk (dom : VarDomainKind) (lb ub : Option ℚ) (value : ℚ) (q : ℚ)
    (hdom : inDomain dom q) (hl : ∀ l, lb = some l → l ≤ q)
    (hu : ∀ u, ub = some u → q ≤ u) :
    feasible ⟨dom, lb, ub, true, true, false, value⟩ q :=
  ⟨hdom, hl, hu⟩

theorem extract_stale_float (lb ub : Option ℚ) (value : ℚ) :
    ((∃ q, feasible ⟨.floatT, lb, ub, true, true, false, value⟩ q) →
      ∃ val, extract_pyomo_value ⟨.floatT, lb, ub, true, true, false, value⟩ none = .ok val
        ∧ feasible ⟨.floatT, lb, ub, true, true, false, value⟩ val
        ∧ ∀ q, feasible ⟨.floatT, lb, ub, true, true, false, value⟩ q → |val| ≤ |q|)
    ∧ ((¬∃ q, feasible ⟨.floatT, lb, ub, true, true, false, value⟩ q) →
      extract_pyomo_value ⟨.floatT, lb, ub, true, true, false, value⟩ none
        = .SchedulingError) := by
  rcases ub with _ | u
  · rcases lb with _ | l
    · refine ⟨fun _ => ⟨0, rfl, feasible_mk _ _ _ _ _ trivial (by simp) (by simp), fun q _ => by simp⟩,
      fun hne => absurd ⟨0, feasible_mk _ _ _ _ _ trivial (by simp) (by simp)⟩ hne⟩
    · by_cases hl : 0 < l
      · have hsel : staleSelect (some l) none = l := by
          show (if 0 < l then l else 0) = l
          rw [if_pos hl]
        have hval : extract_pyomo_value ⟨.floatT, some l, none, true, true, false, value⟩ none
            = .ok l := by
          rw [extract_stale_eq, hsel]
          simp [staleCast, pyCast]
        have hfeas : feasible ⟨.floatT, some l, none, true, true, false, value⟩ l :=
          feasible_mk _ _ _ _ _ trivial (fun l' hl' => by cases hl'; exact le_refl l)
            (fun u hu => by cases hu)
        refine ⟨fun _ => ⟨l, hval, hfeas, fun q hq => ?_⟩, fun hne => absurd ⟨l, hfeas⟩ hne⟩
        exact abs_le_abs_pos hl (hq.2.1 l rfl)
      · have hsel : staleSelect (some l) none = 0 := by
          show (if 0 < l then l else 0) = 0
          rw [if_neg hl]
        have hval : extract_pyomo_value ⟨.floatT, some l, none, true, true, false, value⟩ none
            = .ok 0 := by
          rw [extract_stale_eq, hsel]
          simp [staleCast, pyCast, hl]
        have hfeas : feasible ⟨.floatT, some l, none, true, true, false, value⟩ 0 :=
          feasible_mk _ _ _ _ _ trivial (fun l' hl' => by cases hl'; exact le_of_not_lt hl)
            (fun u hu => by cases hu)
        refine ⟨fun _ => ⟨0, hval, hfeas, fun q _ => by simp⟩,
          fun hne => absurd ⟨0, hfeas⟩ hne⟩
  · by_cases hu : u < 0
    · rcases lb with _ | l
      · have hsel : staleSelect none (some u) = u := by
          show (if u < 0 then u else 0) = u
          rw [if_pos hu]
        have hval : extract_pyomo_value ⟨.floatT, none, some u, true, true, false, value⟩ none
            = .ok u := by
          rw [extract_stale_eq, hsel]
          simp [staleCast, pyCast]
        have hfeas : feasible ⟨.floatT, none, some u, true, true, false, value⟩ u :=
          feasible_mk _ _ _ _ _ trivial (fun l hl => by cases hl)
            (fun u' hu' => by cases hu'; exact le_refl u)
        refine ⟨fun _ => ⟨u, hval, hfeas, fun q hq => ?_⟩, fun hne => absurd ⟨u, hfeas⟩ hne⟩
        exact abs_le_abs_neg (hq.2.2 u rfl) hu
      · have hsel : staleSelect (some l) (some u) = u := by
          show (if u < 0 then u else if 0 < l then l else 0) = u
          rw [if_pos hu]
        by_cases hlu : u < l
        · have hval : extract_pyomo_value ⟨.floatT, some l, some u, true, true, false, value⟩
              none = .SchedulingError := by
            rw [extract_stale_eq, hsel]
            simp [staleCast, hlu]
          refine ⟨fun hex => ?_, fun _ => hval⟩
          obtain ⟨q, _, hql, hqu⟩ := hex
          have h1 : l ≤ q := hql l rfl
          have h2 : q ≤ u := hqu u rfl
          linarith
        · have hval : extract_pyomo_value ⟨.floatT, some l, some u, true, true, false, value⟩
              none = .ok u := by
            rw [extract_stale_eq, hsel]
            simp [staleCast, pyCast, hlu]
          have hfeas : feasible ⟨.floatT, some l, some u, true, true, false, value⟩ u :=
            feasible_mk _ _ _ _ _ trivial (fun l' hl' => by cases hl'; exact le_of_not_lt hlu)
              (fun u' hu' => by cases hu'; exact le_refl u)
          refine ⟨fun _ => ⟨u, hval, hfeas, fun q hq => ?_⟩, fun hne => absurd ⟨u, hfeas⟩ hne⟩
          exact abs_le_abs_neg (hq.2.2 u rfl) hu
    · rcases lb with _ | l
      · have hsel : staleSelect none (some u) = 0 := by
          show (if u < 0 then u else 0) = 0
          rw [if_neg hu]
        have hval : extract_pyomo_value ⟨.floatT, none, some u, true, true, false, value⟩ none
            = .ok 0 := by
          rw [extract_stale_eq, hsel]
          simp [staleCast, pyCast, hu]
        have hfeas : feasible ⟨.floatT, none, some u, true, true, false, value⟩ 0 :=
          feasible_mk _ _ _ _ _ trivial (fun l hl => by cases hl)
            (fun u' hu' => by cases hu'; exact le_of_not_lt hu)
        refine ⟨fun _ => ⟨0, hval, hfeas, fun q _ => by simp⟩,
          fun hne => absurd ⟨0, hfeas⟩ hne⟩
      · by_cases hl : 0 < l
        · have hsel : staleSelect (some l) (some u) = l := by
            show (if u < 0 then u else if 0 < l then l else 0) = l
            rw [if_neg hu, if_pos hl]
          by_cases hul : u < l
          · have hval : extract_pyomo_value ⟨.floatT, some l, some u, true, true, false, value⟩
                none = .SchedulingError := by
              rw [extract_stale_eq, hsel]
              simp [staleCast, hul]
            refine ⟨fun hex => ?_, fun _ => hval⟩
            obtain ⟨q, _, hql, hqu⟩ := hex
            have h1 : l ≤ q := hql l rfl
            have h2 : q ≤ u := hqu u rfl
            linarith
          · have hval : extract_pyomo_value ⟨.floatT, some l, some u, true, true, false, value⟩
                none = .ok l := by
              rw [extract_stale_eq, hsel]
              simp [staleCast, pyCast, hul]
            have hfeas : feasible ⟨.floatT, some l, some u, true, true, false, value⟩ l :=
              feasible_mk _ _ _ _ _ trivial (fun l' hl' => by cases hl'; exact le_refl l)
                (fun u' hu' => by cases hu'; exact le_of_not_lt hul)
            refine ⟨fun _ => ⟨l, hval, hfeas, fun q hq => ?_⟩,
              fun hne => absurd ⟨l, hfeas⟩ hne⟩
            exact abs_le_abs_pos hl (hq.2.1 l rfl)
        · have hsel : staleSelect (some l) (some u) = 0 := by
            show (if u < 0 then u else if 0 < l then l else 0) = 0
            rw [if_neg hu, if_neg hl]
          have hval : extract_pyomo_value ⟨.floatT, some l, some u, true, true, false, value⟩
              none = .ok 0 := by
            rw [extract_stale_eq, hsel]
            simp [staleCast, pyCast, hu, hl]
          have hfeas : feasible ⟨.floatT, some l, some u, true, true, false, value⟩ 0 :=
            feasible_mk _ _ _ _ _ trivial (fun l' hl' => by cases hl'; exact le_of_not_lt hl)
              (fun u' hu' => by cases hu'; exact le_of_not_lt hu)
          refine ⟨fun _ => ⟨0, hval, hfeas, fun q _ => by simp⟩,
            fun hne => absurd ⟨0, hfeas⟩ hne⟩

theorem pyCast_int_cast (z : ℤ) : pyCast .intT ((z : ℚ)) = (z : ℚ) := by
  show (if (0 : ℚ) ≤ (z : ℚ) then ((⌊(z : ℚ)⌋ : ℤ) : ℚ) else ((⌈(z : ℚ)⌉ : ℤ) : ℚ)) = (z : ℚ)
  by_cases h : (0 : ℚ) ≤ (z : ℚ)
  · rw [if_pos h, Int.floor_intCast]
  · rw [if_neg h, Int.ceil_intCast]

theorem staleCast_int_neg {u : ℚ} (hu : u < 0) :
    staleCast .intT u = ((⌊u⌋ : ℤ) : ℚ) := by
  show (if 0 < u then ((⌈u⌉ : ℤ) : ℚ) else if u < 0 then ((⌊u⌋ : ℤ) : ℚ) else u)
      = ((⌊u⌋ : ℤ) : ℚ)
  rw [if_neg (by linarith), if_pos hu]

theorem staleCast_int_pos {l : ℚ} (hl : 0 < l) :
    staleCast .intT l = ((⌈l⌉ : ℤ) : ℚ) := by
  show (if 0 < l then ((⌈l⌉ : ℤ) : ℚ) else if l < 0 then ((⌊l⌋ : ℤ) : ℚ) else l)
      = ((⌈l⌉ : ℤ) : ℚ)
  rw [if_pos hl]

theorem staleCast_int_zero : staleCast .intT 0 = 0 := rfl

theorem extract_stale_int (lb ub : Option ℚ) (value : ℚ) :
    ((∃ q, feasible ⟨.intT, lb, ub, true, true, false, value⟩ q) →
      ∃ val, extract_pyomo_value ⟨.intT, lb, ub, true, true, false, value⟩ none = .ok val
        ∧ feasible ⟨.intT, lb, ub, true, true, false, value⟩ val
        ∧ ∀ q, feasible ⟨.intT, lb, ub, true, true, false, value⟩ q → |val| ≤ |q|)
    ∧ ((¬∃ q, feasible ⟨.intT, lb, ub, true, true, false, value⟩ q) →
      extract_pyomo_value ⟨.intT, lb, ub, true, true, false, value⟩ none
        = .SchedulingError) := by
  rcases ub with _ | u
  · rcases lb with _ | l
    · have hfeas : feasible ⟨.intT, none, none, true, true, false, value⟩ 0 :=
        feasible_mk _ _ _ _ _ ⟨0, by norm_num⟩ (by simp) (by simp)
      exact ⟨fun _ => ⟨0, rfl, hfeas, fun q _ => by simp⟩, fun hne => absurd ⟨0, hfeas⟩ hne⟩
    · by_cases hl : 0 < l
      · have hsel : staleSelect (some l) none = l := by
          show (if 0 < l then l else 0) = l
          rw [if_pos hl]
        have hlc : l ≤ ((⌈l⌉ : ℤ) : ℚ) := Int.le_ceil l
        have hval : extract_pyomo_value ⟨.intT, some l, none, true, true, false, value⟩ none
            = .ok ((⌈l⌉ : ℤ) : ℚ) := by
          rw [extract_stale_eq, hsel, staleCast_int_pos hl]
          rw [if_neg (by simp [not_lt.mpr hlc])]
          rw [pyCast_int_cast]
        have hfeas : feasible ⟨.intT, some l, none, true, true, false, value⟩ ((⌈l⌉ : ℤ) : ℚ) :=
          feasible_mk _ _ _ _ _ ⟨⌈l⌉, rfl⟩
            (fun l' hl' => by cases hl'; exact hlc) (fun u hu => by cases hu)
        refine ⟨fun _ => ⟨_, hval, hfeas, fun q hq => ?_⟩, fun hne => absurd ⟨_, hfeas⟩ hne⟩
        obtain ⟨⟨z, hz⟩, hql, _⟩ := hq
        have h1 : ⌈l⌉ ≤ z := Int.ceil_le.mpr (by rw [hz]; exact hql l rfl)
        have h2 : ((⌈l⌉ : ℤ) : ℚ) ≤ (z : ℚ) := by exact_mod_cast h1
        rw [← hz]
        exact abs_le_abs_pos (lt_of_lt_of_le hl hlc) h2
      · have hsel : staleSelect (some l) none = 0 := by
          show (if 0 < l then l else 0) = 0
          rw [if_neg hl]
        have hval : extract_pyomo_value ⟨.intT, some l, none, true, true, false, value⟩ none
            = .ok 0 := by
          rw [extract_stale_eq, hsel, staleCast_int_zero]
          rw [if_neg (by simp [hl])]
          rfl
        have hfeas : feasible ⟨.intT, some l, none, true, true, false, value⟩ 0 :=
          feasible_mk _ _ _ _ _ ⟨0, by norm_num⟩
            (fun l' hl' => by cases hl'; exact le_of_not_lt hl) (fun u hu => by cases hu)
        exact ⟨fun _ => ⟨0, hval, hfeas, fun q _ => by simp⟩, fun hne => absurd ⟨0, hfeas⟩ hne⟩
  · by_cases hu : u < 0
    · have hfl : ((⌊u⌋ : ℤ) : ℚ) ≤ u := Int.floor_le u
      have hfneg : ((⌊u⌋ : ℤ) : ℚ) < 0 := lt_of_le_of_lt hfl hu
      rcases lb with _ | l
      · have hsel : staleSelect none (some u) = u := by
          show (if u < 0 then u else 0) = u
          rw [if_pos hu]
        have hval : extract_pyomo_value ⟨.intT, none, some u, true, true, false, value⟩ none
            = .ok ((⌊u⌋ : ℤ) : ℚ) := by
          rw [extract_stale_eq, hsel, staleCast_int_neg hu]
          rw [if_neg (by simp [not_lt.mpr hfl])]
          rw [pyCast_int_cast]
        have hfeas : feasible ⟨.intT, none, some u, true, true, false, value⟩
            ((⌊u⌋ : ℤ) : ℚ) :=
          feasible_mk _ _ _ _ _ ⟨⌊u⌋, rfl⟩ (fun l hli => by cases hli)
            (fun u' hu' => by cases hu'; exact hfl)
        refine ⟨fun _ => ⟨_, hval, hfeas, fun q hq => ?_⟩, fun hne => absurd ⟨_, hfeas⟩ hne⟩
        obtain ⟨⟨z, hz⟩, _, hqu⟩ := hq
        have h1 : z ≤ ⌊u⌋ := Int.le_floor.mpr (by rw [hz]; exact hqu u rfl)
        have h2 : (z : ℚ) ≤ ((⌊u⌋ : ℤ) : ℚ) := by exact_mod_cast h1
        rw [← hz]
        exact abs_le_abs_neg h2 hfneg
      · have hsel : staleSelect (some l) (some u) = u := by
          show (if u < 0 then u else if 0 < l then l else 0) = u
          rw [if_pos hu]
        by_cases hcl : ((⌊u⌋ : ℤ) : ℚ) < l
        · have hval : extract_pyomo_value ⟨.intT, some l, some u, true, true, false, value⟩
              none = .SchedulingError := by
            rw [extract_stale_eq, hsel, staleCast_int_neg hu]
            rw [if_pos (by simp [hcl])]
          refine ⟨fun hex => ?_, fun _ => hval⟩
          obtain ⟨q, ⟨z, hz⟩, hql, hqu⟩ := hex
          have h1 : z ≤ ⌊u⌋ := Int.le_floor.mpr (by rw [hz]; exact hqu u rfl)
          have h2 : (z : ℚ) ≤ ((⌊u⌋ : ℤ) : ℚ) := by exact_mod_cast h1
          have h3 : l ≤ q := hql l rfl
          rw [← hz] at h3
          linarith
        · have hval : extract_pyomo_value ⟨.intT, some l, some u, true, true, false, value⟩
              none = .ok ((⌊u⌋ : ℤ) : ℚ) := by
            rw [extract_stale_eq, hsel, staleCast_int_neg hu]
            rw [if_neg (by simp [hcl, not_lt.mpr hfl])]
            rw [pyCast_int_cast]
          have hfeas : feasible ⟨.intT, some l, some u, true, true, false, value⟩
              ((⌊u⌋ : ℤ) : ℚ) :=
            feasible_mk _ _ _ _ _ ⟨⌊u⌋, rfl⟩
              (fun l' hl' => by cases hl'; exact le_of_not_lt hcl)
              (fun u' hu' => by cases hu'; exact hfl)
          refine ⟨fun _ => ⟨_, hval, hfeas, fun q hq => ?_⟩,
            fun hne => absurd ⟨_, hfeas⟩ hne⟩
          obtain ⟨⟨z, hz⟩, _, hqu⟩ := hq
          have h1 : z ≤ ⌊u⌋ := Int.le_floor.mpr (by rw [hz]; exact hqu u rfl)
          have h2 : (z : ℚ) ≤ ((⌊u⌋ : ℤ) : ℚ) := by exact_mod_cast h1
          rw [← hz]
          exact abs_le_abs_neg h2 hfneg
    · rcases lb with _ | l
      · have hsel : staleSelect none (some u) = 0 := by
          show (if u < 0 then u else 0) = 0
          rw [if_neg hu]
        have hval : extract_pyomo_value ⟨.intT, none, some u, true, true, false, value⟩ none
            = .ok 0 := by
          rw [extract_stale_eq, hsel, staleCast_int_zero]
          rw [if_neg (by simp [hu])]
          rfl
        have hfeas : feasible ⟨.intT, none, some u, true, true, false, value⟩ 0 :=
          feasible_mk _ _ _ _ _ ⟨0, by norm_num⟩ (fun l hli => by cases hli)
            (fun u' hu' => by cases hu'; exact le_of_not_lt hu)
        exact ⟨fun _ => ⟨0, hval, hfeas, fun q _ => by simp⟩, fun hne => absurd ⟨0, hfeas⟩ hne⟩
      · by_cases hl : 0 < l
        · have hsel : staleSelect (some l) (some u) = l := by
            show (if u < 0 then u else if 0 < l then l else 0) = l
            rw [if_neg hu, if_pos hl]
          have hlc : l ≤ ((⌈l⌉ : ℤ) : ℚ) := Int.le_ceil l
          by_cases hcu : u < ((⌈l⌉ : ℤ) : ℚ)
          · have hval : extract_pyomo_value ⟨.intT, some l, some u, true, true, false, value⟩
                none = .SchedulingError := by
              rw [extract_stale_eq, hsel, staleCast_int_pos hl]
              rw [if_pos (by simp [hcu])]
            refine ⟨fun hex => ?_, fun _ => hval⟩
            obtain ⟨q, ⟨z, hz⟩, hql, hqu⟩ := hex
            have h1 : ⌈l⌉ ≤ z := Int.ceil_le.mpr (by rw [hz]; exact hql l rfl)
            have h2 : ((⌈l⌉ : ℤ) : ℚ) ≤ (z : ℚ) := by exact_mod_cast h1
            have h3 : q ≤ u := hqu u rfl
            rw [← hz] at h3
            linarith
          · have hval : extract_pyomo_value ⟨.intT, some l, some u, true, true, false, value⟩
                none = .ok ((⌈l⌉ : ℤ) : ℚ) := by
              rw [extract_stale_eq, hsel, staleCast_int_pos hl]
              rw [if_neg (by simp [hcu, not_lt.mpr hlc])]
              rw [pyCast_int_cast]
            have hfeas : feasible ⟨.intT, some l, some u, true, true, false, value⟩
                ((⌈l⌉ : ℤ) : ℚ) :=
              feasible_mk _ _ _ _ _ ⟨⌈l⌉, rfl⟩
                (fun l' hl' => by cases hl'; exact hlc)
                (fun u' hu' => by cases hu'; exact le_of_not_lt hcu)
            refine ⟨fun _ => ⟨_, hval, hfeas, fun q hq => ?_⟩,
              fun hne => absurd ⟨_, hfeas⟩ hne⟩
            obtain ⟨⟨z, hz⟩, hql, _⟩ := hq
            have h1 : ⌈l⌉ ≤ z := Int.ceil_le.mpr (by rw [hz]; exact hql l rfl)
            have h2 : ((⌈l⌉ : ℤ) : ℚ) ≤ (z : ℚ) := by exact_mod_cast h1
            rw [← hz]
            exact abs_le_abs_pos (lt_of_lt_of_le hl hlc) h2
        · have hsel : staleSelect (some l) (some u) = 0 := by
            show (if u < 0 then u else if 0 < l then l else 0) = 0
            rw [if_neg hu, if_neg hl]
          have hval : extract_pyomo_value ⟨.intT, some l, some u, true, true, false, value⟩
              none = .ok 0 := by
            rw [extract_stale_eq, hsel, staleCast_int_zero]
            rw [if_neg (by simp [hl, hu])]
            rfl
          have hfeas : feasible ⟨.intT, some l, some u, true, true, false, value⟩ 0 :=
            feasible_mk _ _ _ _ _ ⟨0, by norm_num⟩
              (fun l' hl' => by cases hl'; exact le_of_not_lt hl)
              (fun u' hu' => by cases hu'; exact le_of_not_lt hu)
          exact ⟨fun _ => ⟨0, hval, hfeas, fun q _ => by simp⟩,
            fun hne => absurd ⟨0, hfeas⟩ hne⟩

theorem staleCast_bool (q : ℚ) : staleCast .boolT q = if q = 0 then q else 1 := rfl

theorem pyCast_bool_one : pyCast .boolT 1 = 1 := by
  show (if (1 : ℚ) = 0 then 0 else 1) = 1
  rw [if_neg one_ne_zero]

theorem extract_stale_bool (lb ub : Option ℚ) (value : ℚ) :
    ((∃ q, feasible ⟨.boolT, lb, ub, true, true, false, value⟩ q) →
      ∃ val, extract_pyomo_value ⟨.boolT, lb, ub, true, true, false, value⟩ none = .ok val
        ∧ feasible ⟨.boolT, lb, ub, true, true, false, value⟩ val
        ∧ ∀ q, feasible ⟨.boolT, lb, ub, true, true, false, value⟩ q → |val| ≤ |q|)
    ∧ ((¬∃ q, feasible ⟨.boolT, lb, ub, true, true, false, value⟩ q) →
      extract_pyomo_value ⟨.boolT, lb, ub, true, true, false, value⟩ none
        = .SchedulingError) := by
  rcases ub with _ | u
  · rcases lb with _ | l
    · have hfeas : feasible ⟨.boolT, none, none, true, true, false, value⟩ 0 :=
        feasible_mk _ _ _ _ _ (Or.inl rfl) (by simp) (by simp)
      exact ⟨fun _ => ⟨0, rfl, hfeas, fun q _ => by simp⟩, fun hne => absurd ⟨0, hfeas⟩ hne⟩
    · by_cases hl : 0 < l
      · have hsel : staleSelect (some l) none = l := by
          show (if 0 < l then l else 0) = l
          rw [if_pos hl]
        have hone : staleCast .boolT l = 1 := by
          rw [staleCast_bool, if_neg (by linarith)]
        by_cases h1l : 1 < l
        · have hval : extract_pyomo_value ⟨.boolT, some l, none, true, true, false, value⟩
              none = .SchedulingError := by
            rw [extract_stale_eq, hsel, hone]
            rw [if_pos (by simp [h1l])]
          refine ⟨fun hex => ?_, fun _ => hval⟩
          obtain ⟨q, hdom, hql, _⟩ := hex
          have h1 : l ≤ q := hql l rfl
          rcases hdom with rfl | rfl
          · linarith
          · linarith
        · have hval : extract_pyomo_value ⟨.boolT, some l, none, true, true, false, value⟩
              none = .ok 1 := by
            rw [extract_stale_eq, hsel, hone]
            rw [if_neg (by simp [h1l])]
            rw [pyCast_bool_one]
          have hfeas : feasible ⟨.boolT, some l, none, true, true, false, value⟩ 1 :=
            feasible_mk _ _ _ _ _ (Or.inr rfl)
              (fun l' hl' => by cases hl'; exact le_of_not_lt h1l)
              (fun u hu => by cases hu)
          refine ⟨fun _ => ⟨1, hval, hfeas, fun q hq => ?_⟩,
            fun hne => absurd ⟨1, hfeas⟩ hne⟩
          rcases hq.1 with rfl | rfl
          · have := hq.2.1 l rfl
            linarith
          · exact le_refl _
      · have hsel : staleSelect (some l) none = 0 := by
          show (if 0 < l then l else 0) = 0
          rw [if_neg hl]
        have hval : extract_pyomo_value ⟨.boolT, some l, none, true, true, false, value⟩ none
            = .ok 0 := by
          rw [extract_stale_eq, hsel]
          rw [if_neg (by simp [staleCast_bool, hl])]
          rfl
        have hfeas : feasible ⟨.boolT, some l, none, true, true, false, value⟩ 0 :=
          feasible_mk _ _ _ _ _ (Or.inl rfl)
            (fun l' hl' => by cases hl'; exact le_of_not_lt hl) (fun u hu => by cases hu)
        exact ⟨fun _ => ⟨0, hval, hfeas, fun q _ => by simp⟩, fun hne => absurd ⟨0, hfeas⟩ hne⟩
  · by_cases hu : u < 0
    · have hsel : staleSelect lb (some u) = u := by
        rcases lb with _ | l
        · show (if u < 0 then u else 0) = u
          rw [if_pos hu]
        · show (if u < 0 then u else if 0 < l then l else 0) = u
          rw [if_pos hu]
      have hone : staleCast .boolT u = 1 := by
        rw [staleCast_bool, if_neg (by linarith)]
      have hval : extract_pyomo_value ⟨.boolT, lb, some u, true, true, false, value⟩ none
          = .SchedulingError := by
        rw [extract_stale_eq, hsel, hone]
        rw [if_pos (by simp [show u < 1 by linarith])]
      refine ⟨fun hex => ?_, fun _ => hval⟩
      obtain ⟨q, hdom, _, hqu⟩ := hex
      have h2 : q ≤ u := hqu u rfl
      rcases hdom with rfl | rfl
      · linarith
      · linarith
    · rcases lb with _ | l
      · have hsel : staleSelect none (some u) = 0 := by
          show (if u < 0 then u else 0) = 0
          rw [if_neg hu]
        have hval : extract_pyomo_value ⟨.boolT, none, some u, true, true, false, value⟩ none
            = .ok 0 := by
          rw [extract_stale_eq, hsel]
          rw [if_neg (by simp [staleCast_bool, hu])]
          rfl
        have hfeas : feasible ⟨.boolT, none, some u, true, true, false, value⟩ 0 :=
          feasible_mk _ _ _ _ _ (Or.inl rfl) (fun l hli => by cases hli)
            (fun u' hu' => by cases hu'; exact le_of_not_lt hu)
        exact ⟨fun _ => ⟨0, hval, hfeas, fun q _ => by simp⟩, fun hne => absurd ⟨0, hfeas⟩ hne⟩
      · by_cases hl : 0 < l
        · have hsel : staleSelect (some l) (some u) = l := by
            show (if u < 0 then u else if 0 < l then l else 0) = l
            rw [if_neg hu, if_pos hl]
          have hone : staleCast .boolT l = 1 := by
            rw [staleCast_bool, if_neg (by linarith)]
          by_cases herr : 1 < l ∨ u < 1
          · have hval : extract_pyomo_value ⟨.boolT, some l, some u, true, true, false, value⟩
                none = .SchedulingError := by
              rw [extract_stale_eq, hsel, hone]
              rcases herr with h | h
              · rw [if_pos (by simp [h])]
              · rw [if_pos (by simp [h])]
            refine ⟨fun hex => ?_, fun _ => hval⟩
            obtain ⟨q, hdom, hql, hqu⟩ := hex
            have h1 : l ≤ q := hql l rfl
            have h2 : q ≤ u := hqu u rfl
            rcases hdom with rfl | rfl
            · linarith
            · rcases herr with h | h
              · linarith
              · linarith
          · push_neg at herr
            have hval : extract_pyomo_value ⟨.boolT, some l, some u, true, true, false, value⟩
                none = .ok 1 := by
              rw [extract_stale_eq, hsel, hone]
              rw [if_neg (by simp [not_lt.mpr herr.1, not_lt.mpr herr.2])]
              rw [pyCast_bool_one]
            have hfeas : feasible ⟨.boolT, some l, some u, true, true, false, value⟩ 1 :=
              feasible_mk _ _ _ _ _ (Or.inr rfl)
                (fun l' hl' => by cases hl'; exact herr.1)
                (fun u' hu' => by cases hu'; exact herr.2)
            refine ⟨fun _ => ⟨1, hval, hfeas, fun q hq => ?_⟩,
              fun hne => absurd ⟨1, hfeas⟩ hne⟩
            rcases hq.1 with rfl | rfl
            · have := hq.2.1 l rfl
              linarith
            · exact le_refl _
        · have hsel : staleSelect (some l) (some u) = 0 := by
            show (if u < 0 then u else if 0 < l then l else 0) = 0
            rw [if_neg hu, if_neg hl]
          have hval : extract_pyomo_value ⟨.boolT, some l, some u, true, true, false, value⟩
              none = .ok 0 := by
            rw [extract_stale_eq, hsel]
            rw [if_neg (by simp [staleCast_bool, hl, hu])]
            rfl
          have hfeas : feasible ⟨.boolT, some l, some u, true, true, false, value⟩ 0 :=
            feasible_mk _ _ _ _ _ (Or.inl rfl)
              (fun l' hl' => by cases hl'; exact le_of_not_lt hl)
              (fun u' hu' => by cases hu'; exact le_of_not_lt hu)
          exact ⟨fun _ => ⟨0, hval, hfeas, fun q _ => by simp⟩,
            fun hne => absurd ⟨0, hfeas⟩ hne⟩

/-- Counterexample to C8 as stated: a stale bool-domain variable with lower
bound 2 must, by the claim, yield its lower bound 2 (the bounds admit 2 and
the lower bound is above zero), but the code collapses the nonzero value to
1, the final bounds check sees 1 below the lower bound and raises
SchedulingError. -/
theorem extract_stale_counterexample :
    extract_pyomo_value ⟨.boolT, some 2, none, true, true, false, 0⟩ none = .SchedulingError
      ∧ extract_pyomo_value ⟨.boolT, some 2, none, true, true, false, 0⟩ none ≠ .ok 2 := by
  with_unfolding_all decide

/-- C8 amended: for a non-indexed stale variable with the default
var_type=None, the returned value is the value closest to zero among those
satisfying the bounds and the variable domain (all rationals for a float
domain, the integers for an int domain, 0 and 1 for a bool domain) — so a
bound is rounded into the domain rather than returned as-is — and
SchedulingError is raised exactly when no such value exists. -/
theorem extract_stale_closest_feasible (v : PyomoVar)
    (hs : v.has_stale = true) (hni : v.is_indexed = false) (hst : v.stale = true) :
    ((∃ q, feasible v q) →
      ∃ val, extract_pyomo_value v none = .ok val ∧ feasible v val
        ∧ ∀ q, feasible v q → |val| ≤ |q|)
    ∧ ((¬∃ q, feasible v q) → extract_pyomo_value v none = .SchedulingError) := by
  obtain ⟨dom, lb, ub, stale, hstale, idx, value⟩ := v
  simp only [] at hs hni hst
  subst hs hni hst
  cases dom
  · exact extract_stale_float lb ub value
  · exact extract_stale_int lb ub value
  · exact extract_stale_bool lb ub value

/-- Witness for C8 amended at a stale float-domain variable with bounds
[-3, 5], whose feasible set admits 0. -/
theorem extract_stale_closest_feasible_witness :
    ∃ val, extract_pyomo_value ⟨.floatT, some (-3), some 5, true, true, false, 0⟩ none
        = .ok val
      ∧ feasible ⟨.floatT, some (-3), some 5, true, true, false, 0⟩ val
      ∧ ∀ q, feasible ⟨.floatT, some (-3), some 5, true, true, false, 0⟩ q → |val| ≤ |q| :=
  (extract_stale_closest_feasible ⟨.floatT, some (-3), some 5, true, true, false, 0⟩
      rfl rfl rfl).1
    ⟨0, trivial, fun l hl => by cases hl; norm_num, fun u hu => by cases hu; norm_num⟩
